import Mathlib

/-!
Verification of the pseudo-cell generation core of ALLCools
(file ALLCools/pseudo_cell/pseudo_cell_kmeans.py), shallowly embedded.

Cells are opaque identifiers (modelled as naturals), matrices are lists of
rows of rationals.  The stochastic MiniBatchKMeans subroutine is modelled as
an oracle parameter: a function from the parameter record built at the call
site and the sub-matrix to a per-row cluster index.  Python decimal
rendering of an integer (str(i)) is Nat.repr.  The pandas label Series with
its possible NaN entries is modelled as a function into Option String
(none standing for NaN).  The while loop over the to_process stack is
modelled with explicit fuel; a result of none means the fuel was exhausted,
i.e. the loop did not terminate within the given budget.
-/

namespace PseudoCell

abbrev Cell := Nat

abbrev Mat := List (List Rat)

/-- Parameter record of the MiniBatchKMeans construction in _kmeans_division.
Fields in order: n_clusters, init, max_iter, batch_size, verbose,
compute_labels, random_state, tol, max_no_improvement, init_size, n_init,
reassignment_ratio. -/
structure MBKParams where
  n_clusters : Nat
  initMethod : String
  max_iter : Nat
  batch_size : Nat
  verbose : Nat
  compute_labels : Bool
  random_state : Nat
  tol : Rat
  max_no_improvement : Nat
  init_size : Nat
  n_init : Nat
  reassignment_ratio : Rat
deriving Repr, DecidableEq

/-- The MiniBatchKMeans(...) construction of _kmeans_division, line by line:
n_clusters = k, init = k-means++, max_iter = 100, batch_size = 100,
verbose = 0, compute_labels = True, random_state = 0, tol = 0.0,
max_no_improvement = 10, init_size = 3 * k, n_init = 5,
reassignment_ratio = 0.1. -/
def mkMBK (k : Nat) : MBKParams :=
  ⟨k, "k-means++", 100, 100, 0, true, 0, 0, 10, 3 * k, 5, 1 / 10⟩

/-- Model of the fitted-labels behaviour of MiniBatchKMeans: given the
parameter record and the matrix, return one cluster index per row
(mbk.labels_ after mbk.fit). -/
abbrev Oracle := MBKParams → Mat → List Nat

/-- An oracle is shape-correct when it returns exactly one label per row,
as sklearn does. -/
def OracleLen (oracle : Oracle) : Prop :=
  ∀ p m, (oracle p m).length = m.length

/-- Grouping of a labelled cell list by label, keeping for each distinct
label the cells carrying it, each distinct label listed once (pandas
groupby sorts group keys; List.dedup lists them in another order — no
claim below depends on the order in which groups are listed or
processed). -/
def groupsBy (labeled : List (Cell × String)) : List (String × List Cell) :=
  ((labeled.map (fun cv => cv.2)).dedup).map
    (fun v => (v, (labeled.filter (fun cv => cv.2 == v)).map (fun cv => cv.1)))

/-- The pandas assignment labels.loc[curr_cells] = curr_labels.tolist():
cells appearing in the pair list receive their new label, all others keep
their previous one. -/
def assignLabels (f : Cell → Option String) (pairs : List (Cell × String)) :
    Cell → Option String :=
  fun c =>
    match pairs.lookup c with
    | some v => some v
    | none => f c

/-- curr_matrix = matrix[cells.isin(curr_cells)]: the rows of the matrix
(aligned positionally with cells) whose cell lies in the current subset. -/
def subMatrix (matrix : Mat) (cells currCells : List Cell) : Mat :=
  ((cells.zip matrix).filter (fun cm => decide (cm.1 ∈ currCells))).map
    (fun cm => cm.2)

/-- The freshly labelled current subset of one while-iteration of
_kmeans_division: k = min(len(curr_cells)//max_pseudo_size+1, max_k) is
computed, mbk.fit(curr_matrix) is run, and each cell of the subset is
paired positionally with curr_prefix+'|'+str(label). -/
def labeledOf (oracle : Oracle) (matrix : Mat) (cells currCells : List Cell)
    (currPfx : String) (maxPseudoSize maxK : Nat) : List (Cell × String) :=
  let k := min (currCells.length / maxPseudoSize + 1) maxK
  let ls := oracle (mkMBK k) (subMatrix matrix cells currCells)
  currCells.zip (ls.map (fun i => currPfx ++ "|" ++ Nat.repr i))

/-- The groups of one iteration whose size exceeds the bound, pushed for
further splitting as (group cells, group label) pairs. -/
def pushedOf (labeled : List (Cell × String)) (maxPseudoSize : Nat) :
    List (List Cell × String) :=
  (groupsBy labeled).filterMap
    (fun gv => if gv.2.length ≤ maxPseudoSize then none else some (gv.2, gv.1))

/-- One while-iteration body plus the remaining loop of _kmeans_division.
The to_process stack is held with its top at the head (Python appends to
the list end and pops from the end; groups pushed in one iteration are
therefore processed before older entries, which pushed.reverse ++ rest
reproduces).  Fuel bounds the number of iterations; none means the loop
was still running when the fuel ran out. -/
def kmeansLoop (oracle : Oracle) (matrix : Mat) (cells : List Cell)
    (maxPseudoSize maxK : Nat) :
    Nat → List (List Cell × String) → (Cell → Option String) →
    Option (Cell → Option String)
  | _, [], f => some f
  | 0, _ :: _, _ => none
  | fuel + 1, (currCells, currPfx) :: rest, f =>
    let labeled := labeledOf oracle matrix cells currCells currPfx maxPseudoSize maxK
    kmeansLoop oracle matrix cells maxPseudoSize maxK fuel
      ((pushedOf labeled maxPseudoSize).reverse ++ rest) (assignLabels f labeled)

/-- _kmeans_division(matrix, cells, max_pseudo_size, max_k=50).  Returns the
final label Series as an association list in cell order; label entries are
Option String, none standing for a never-assigned NaN entry. -/
def kmeansDivision (oracle : Oracle) (matrix : Mat) (cells : List Cell)
    (maxPseudoSize maxK fuel : Nat) : Option (List (Cell × Option String)) :=
  if maxPseudoSize ≤ 1 then
    -- return '|'+pd.Series(range(cells.size), index=cells).astype(str)
    some (cells.enum.map (fun ic => (ic.2, some ("|" ++ Nat.repr ic.1))))
  else
    (kmeansLoop oracle matrix cells maxPseudoSize maxK fuel [(cells, "")]
      (fun _ => none)).map
      (fun f => cells.map (fun c => (c, f c)))

/-- Per-cluster size cap of _calculate_pseudo_group:
max_pseudo_sizes = (cluster_cells // pseudoable_cluster_size + 1), then
entries above max_pseudo_size are clipped down to max_pseudo_size. -/
def pseudoSizeCap (n pcs mps : Nat) : Nat :=
  let x := n / pcs + 1
  if x > mps then mps else x

/-- The body of the per-cluster loop of _calculate_pseudo_group: select the
cluster's cells and matrix rows, run _kmeans_division with the cluster's
cap, and prefix every label with the cluster name and the double colon. -/
def plannerOne (oracle : Oracle) (clusters : List (Cell × String))
    (totalMatrix : Mat) (pcs mps fuel : Nat) (name : String) :
    Option (List (Cell × Option String)) :=
  let cs := (clusters.filter (fun cc => cc.2 == name)).map (fun cc => cc.1)
  let mat := ((clusters.zip totalMatrix).filter
    (fun cm => cm.1.2 == name)).map (fun cm => cm.2)
  (kmeansDivision oracle mat cs (pseudoSizeCap cs.length pcs mps) 50 fuel).map
    (fun r => r.map (fun co => (co.1, co.2.map (fun s => name ++ "::" ++ s))))

/-- _calculate_pseudo_group(clusters, total_matrix, pseudoable_cluster_size,
max_pseudo_size).  clusters is the obs-aligned cell/cluster-name table and
totalMatrix the obs-aligned embedding matrix.  The per-cluster loop runs
over the distinct cluster names (one occurrence each; pandas value_counts
orders them by descending count — no claim below depends on the
concatenation order) and the per-cluster records are concatenated. -/
def calculatePseudoGroup (oracle : Oracle) (clusters : List (Cell × String))
    (totalMatrix : Mat) (pcs mps fuel : Nat) :
    Option (List (Cell × Option String)) :=
  (((clusters.map (fun cc => cc.2)).dedup).mapM
    (plannerOne oracle clusters totalMatrix pcs mps fuel)).map List.flatten

/-- Column-wise aggregation of a list of rows. -/
def colAgg (f : List Rat → Rat) (rows : List (List Rat)) : List Rat :=
  rows.transpose.map f

/-- One output row of the reduced dataset: the pseudo-group label (the obs
name), the n_cells annotation and the aggregated feature row. -/
structure PseudoRow where
  label : String
  nCells : Nat
  row : List Rat
deriving Repr, DecidableEq

/-- The groups iterated by _merge_pseudo_cell:
adata.obs_names.groupby(adata.obs[pseudo_group_key]), i.e. for each
distinct value of the group column the obs names carrying it, in their
original order. -/
def mergeGroups (obsNames : List Cell) (groupCol : List String) :
    List (String × List Cell) :=
  (groupCol.dedup).map
    (fun v => (v, ((obsNames.zip groupCol).filter (fun p => p.2 == v)).map
      (fun p => p.1)))

/-- adata.var_vector(c): the raw data row of the obs named c. -/
def varVector (obsNames : List Cell) (X : Mat) (c : Cell) : List Rat :=
  ((obsNames.zip X).lookup c).getD []

/-- adata[cells, :].X: the data rows of the named cells. -/
def rowsOf (obsNames : List Cell) (X : Mat) (cs : List Cell) : List (List Rat) :=
  ((obsNames.zip X).filter (fun cx => decide (cx.1 ∈ cs))).map (fun cx => cx.2)

/-- The loop body of _merge_pseudo_cell on one (group, cells) pair.  A group
of one cell copies that cell's raw row (adata.var_vector) without looking
at aggregate_func; larger groups dispatch on aggregate_func.  Neither
numpy arrays nor scipy sparse matrices define a median method, so for the
median branch the attempt inside the try block and the fallback inside the
except block both raise AttributeError, which nothing catches; an
unrecognized aggregate_func raises ValueError.  Either exception is
modelled as Except.error. -/
def mergeOne (X : Mat) (obsNames : List Cell) (aggregateFunc : String)
    (pick : List Cell → Cell) (gv : String × List Cell) :
    Except String PseudoRow :=
  let cs := gv.2
  let n := cs.length
  if n = 1 then
    Except.ok ⟨gv.1, n, varVector obsNames X (cs.headD 0)⟩
  else if aggregateFunc = "sum" then
    Except.ok ⟨gv.1, n, colAgg List.sum (rowsOf obsNames X cs)⟩
  else if aggregateFunc = "mean" then
    Except.ok ⟨gv.1, n, colAgg (fun l => l.sum / (l.length : Rat)) (rowsOf obsNames X cs)⟩
  else if aggregateFunc = "median" then
    Except.error "AttributeError: median"
  else if aggregateFunc = "downsample" then
    Except.ok ⟨gv.1, n, varVector obsNames X (pick cs)⟩
  else
    Except.error ("aggregate_func can only be [sum, mean, median], got " ++
      aggregateFunc)

/-- _merge_pseudo_cell(adata, aggregate_func, pseudo_group_key).  X is the
obs-aligned data matrix, obsNames the obs names, groupCol the obs column
named by pseudo_group_key.  pick models np.random.choice on the group's
cells (exercised only by the downsample branch).  Groups are listed in
an order with one group per distinct label (pandas sorts the group keys;
no claim below depends on the order); the loop raises out of the whole
call at the first failing group, returning no dataset. -/
def mergePseudoCell (X : Mat) (obsNames : List Cell) (groupCol : List String)
    (aggregateFunc : String) (pick : List Cell → Cell) :
    Except String (List PseudoRow) :=
  (mergeGroups obsNames groupCol).mapM (mergeOne X obsNames aggregateFunc pick)

/-! Decimal rendering facts.  Python str(i) on a non-negative integer and
Nat.repr produce the same decimal digit string; the label bookkeeping of
the partitioner relies on the digit characters containing neither the bar
separator of the partition path nor the colon of the cluster prefix, and
on distinct numbers rendering to distinct strings. -/

/-- Decimal digit characters of a natural number, most significant first. -/
def decDigits (n : Nat) : List Char :=
  if n < 10 then [Nat.digitChar n]
  else decDigits (n / 10) ++ [Nat.digitChar (n % 10)]
termination_by n
decreasing_by exact Nat.div_lt_self (by omega) (by omega)

theorem decDigits_lt {n : Nat} (h : n < 10) : decDigits n = [Nat.digitChar n] := by
  rw [decDigits, if_pos h]

theorem decDigits_ge {n : Nat} (h : ¬ n < 10) :
    decDigits n = decDigits (n / 10) ++ [Nat.digitChar (n % 10)] := by
  conv_lhs => rw [decDigits]
  rw [if_neg h]

theorem toDigitsCore_eq_decDigits :
    ∀ (f n : Nat) (ds : List Char), n < 10 ^ f → 0 < f →
      Nat.toDigitsCore 10 f n ds = decDigits n ++ ds := by
  intro f
  induction f with
  | zero => intro n ds _ h; omega
  | succ f ih =>
    intro n ds hn _
    rw [Nat.toDigitsCore]
    by_cases hdiv : n / 10 = 0
    · have hlt : n < 10 := by omega
      simp only [hdiv, if_pos rfl]
      rw [decDigits_lt hlt, Nat.mod_eq_of_lt hlt]
      rfl
    · have hge : ¬ n < 10 := by omega
      have hf : 0 < f := by
        rcases Nat.eq_zero_or_pos f with rfl | hf
        · simp at hn; omega
        · exact hf
      have hq : n / 10 < 10 ^ f := by
        rw [Nat.div_lt_iff_lt_mul (by omega)]
        calc n < 10 ^ (f + 1) := hn
        _ = 10 ^ f * 10 := by ring
      simp only [if_neg hdiv]
      rw [ih (n / 10) (Nat.digitChar (n % 10) :: ds) hq hf]
      rw [decDigits_ge hge]
      simp

theorem repr_data_eq_decDigits (n : Nat) : (Nat.repr n).data = decDigits n := by
  show (Nat.toDigits 10 n).asString.data = decDigits n
  rw [Nat.toDigits, toDigitsCore_eq_decDigits (n + 1) n [] ?_ (by omega)]
  · simp [List.asString]
  · calc n < 10 ^ n := Nat.lt_pow_self (by omega) n
    _ ≤ 10 ^ (n + 1) := Nat.pow_le_pow_right (by omega) (by omega)

def decCharSet : List Char := ['0', '1', '2', '3', '4', '5', '6', '7', '8', '9']

theorem digitChar_mem_decCharSet (n : Nat) (h : n < 10) :
    Nat.digitChar n ∈ decCharSet := by
  interval_cases n <;> decide

theorem decDigits_chars (n : Nat) : ∀ c ∈ decDigits n, c ∈ decCharSet := by
  induction n using Nat.strong_induction_on with
  | _ n ih =>
    intro c hc
    by_cases h : n < 10
    · rw [decDigits_lt h] at hc
      simp at hc
      exact hc ▸ digitChar_mem_decCharSet n h
    · rw [decDigits_ge h] at hc
      rcases List.mem_append.mp hc with h1 | h2
      · exact ih (n / 10) (Nat.div_lt_self (by omega) (by omega)) c h1
      · simp at h2
        exact h2 ▸ digitChar_mem_decCharSet (n % 10) (Nat.mod_lt n (by omega))

theorem decCharSet_ne_bar_colon {c : Char} (h : c ∈ decCharSet) :
    c ≠ '|' ∧ c ≠ ':' := by
  fin_cases h <;> exact ⟨by decide, by decide⟩

theorem bar_not_mem_repr (n : Nat) : '|' ∉ (Nat.repr n).data := by
  rw [repr_data_eq_decDigits]
  intro h
  exact (decCharSet_ne_bar_colon (decDigits_chars n _ h)).1 rfl

theorem colon_not_mem_repr (n : Nat) : ':' ∉ (Nat.repr n).data := by
  rw [repr_data_eq_decDigits]
  intro h
  exact (decCharSet_ne_bar_colon (decDigits_chars n _ h)).2 rfl

theorem decDigits_ne_nil (n : Nat) : decDigits n ≠ [] := by
  by_cases h : n < 10
  · rw [decDigits_lt h]; simp
  · rw [decDigits_ge h]; simp

theorem digitChar_inj_of_lt {m n : Nat} (hm : m < 10) (hn : n < 10)
    (h : Nat.digitChar m = Nat.digitChar n) : m = n := by
  interval_cases m <;> interval_cases n <;> first | rfl | exact absurd h (by decide)

theorem decDigits_inj : ∀ {m n : Nat}, decDigits m = decDigits n → m = n := by
  intro m
  induction m using Nat.strong_induction_on with
  | _ m ih =>
    intro n h
    by_cases hm : m < 10 <;> by_cases hn : n < 10
    · rw [decDigits_lt hm, decDigits_lt hn] at h
      simp at h
      exact digitChar_inj_of_lt hm hn h
    · exfalso
      rw [decDigits_lt hm, decDigits_ge hn] at h
      have hlen := congrArg List.length h
      simp only [List.length_cons, List.length_append, List.length_nil] at hlen
      have hne := decDigits_ne_nil (n / 10)
      have h0 : (decDigits (n / 10)).length ≠ 0 :=
        fun hz => hne (List.length_eq_zero.mp hz)
      omega
    · exfalso
      rw [decDigits_ge hm, decDigits_lt hn] at h
      have hlen := congrArg List.length h
      simp only [List.length_cons, List.length_append, List.length_nil] at hlen
      have hne := decDigits_ne_nil (m / 10)
      have h0 : (decDigits (m / 10)).length ≠ 0 :=
        fun hz => hne (List.length_eq_zero.mp hz)
      omega
    · rw [decDigits_ge hm, decDigits_ge hn] at h
      have h2 := List.append_inj' h (by simp)
      have hdiv : m / 10 = n / 10 :=
        ih (m / 10) (Nat.div_lt_self (by omega) (by omega)) h2.1
      have hmod : m % 10 = n % 10 := by
        have := h2.2
        simp at this
        exact digitChar_inj_of_lt (Nat.mod_lt m (by omega)) (Nat.mod_lt n (by omega)) this
      omega

theorem repr_inj {m n : Nat} (h : Nat.repr m = Nat.repr n) : m = n := by
  apply decDigits_inj
  rw [← repr_data_eq_decDigits, ← repr_data_eq_decDigits, h]

/-- Splitting at a double-colon separator is unambiguous as long as the parts
before the separator contain no colon at all. -/
theorem colon2_sep_inj :
    ∀ (a c : List Char) {b d : List Char}, (':' ∉ a) → (':' ∉ c) →
      a ++ ':' :: ':' :: b = c ++ ':' :: ':' :: d → a = c ∧ b = d := by
  intro a
  induction a with
  | nil =>
    intro c b d _ hc h
    cases c with
    | nil => simp at h; exact ⟨rfl, h⟩
    | cons y ys =>
      exfalso
      simp at h
      exact hc (h.1 ▸ List.mem_cons_self y ys)
  | cons x xs ih =>
    intro c b d ha hc h
    cases c with
    | nil =>
      exfalso
      simp at h
      exact ha (h.1 ▸ List.mem_cons_self x xs)
    | cons y ys =>
      simp at h
      rcases h with ⟨rfl, h2⟩
      have hxs : ':' ∉ xs := fun hm => ha (List.mem_cons_of_mem x hm)
      have hys : ':' ∉ ys := fun hm => hc (List.mem_cons_of_mem x hm)
      have := ih ys hxs hys h2
      exact ⟨by rw [this.1], this.2⟩

/-! Shared helper facts and concrete oracle instances used by witnesses. -/

/-- A simple shape-correct clustering behaviour: row i goes to cluster
i mod k.  Used to instantiate the oracle parameter in witnesses. -/
def roundOracle : Oracle :=
  fun p m => (List.range m.length).map (fun i => i % p.n_clusters)

theorem roundOracle_len : OracleLen roundOracle := by
  intro p m
  simp [roundOracle]

/-- A fully degenerate clustering behaviour: every row goes to cluster 0,
as MiniBatchKMeans does on a matrix whose rows are all identical. -/
def constOracle : Oracle := fun _ m => m.map (fun _ => 0)

theorem constOracle_len : OracleLen constOracle := by
  intro p m
  simp [constOracle]

theorem bar_repr_inj {i j : Nat}
    (h : "|" ++ Nat.repr i = "|" ++ Nat.repr j) : i = j := by
  have hd := congrArg String.data h
  rw [String.data_append, String.data_append] at hd
  simp only [List.append_cancel_left_eq] at hd
  exact repr_inj (String.ext hd)

/-- C4: for a cluster of n cells the budget planner's cap is
min(floor(n / pseudoable_cluster_size) + 1, max_pseudo_size); in the
concrete scenario n = 12, pseudoable_cluster_size = 5, max_pseudo_size = 3
the cap is 3. -/
theorem cap_eq_min (n pcs mps : Nat) :
    pseudoSizeCap n pcs mps = min (n / pcs + 1) mps ∧ pseudoSizeCap 12 5 3 = 3 := by
  constructor
  · rw [pseudoSizeCap]
    by_cases h : n / pcs + 1 > mps
    · rw [if_pos h]; omega
    · rw [if_neg h]; omega
  · rfl

/-- C5: with max_pseudo_size at most 1 the divider performs no clustering
and returns one singleton group per cell: the result covers the cells in
order, the label at row position i is the bar character followed by the
decimal rendering of i, and all n labels are pairwise distinct, so there
are n groups for n cells whatever the matrix contains. -/
theorem division_degenerate (oracle : Oracle) (matrix : Mat) (cells : List Cell)
    (mps maxK fuel : Nat) (h : mps ≤ 1) :
    ∃ res, kmeansDivision oracle matrix cells mps maxK fuel = some res ∧
      res.map (fun e => e.1) = cells ∧
      res.map (fun e => e.2) =
        (List.range cells.length).map (fun i => some ("|" ++ Nat.repr i)) ∧
      (res.map (fun e => e.2)).Nodup := by
  refine ⟨cells.enum.map (fun ic => (ic.2, some ("|" ++ Nat.repr ic.1))), ?_, ?_, ?_, ?_⟩
  · rw [kmeansDivision, if_pos h]
  · rw [List.map_map]
    have : ((fun e : Cell × Option String => e.1) ∘
        (fun ic : Nat × Cell => (ic.2, some ("|" ++ Nat.repr ic.1)))) = Prod.snd := rfl
    rw [this, List.enum_map_snd]
  · rw [List.map_map, ← List.enum_map_fst cells, List.map_map]
    rfl
  · rw [List.map_map]
    have : ((fun e : Cell × Option String => e.2) ∘
        (fun ic : Nat × Cell => (ic.2, some ("|" ++ Nat.repr ic.1)))) =
        (fun ic : Nat × Cell => some ("|" ++ Nat.repr ic.1)) := rfl
    rw [this]
    have hinj : Function.Injective (fun i : Nat => some ("|" ++ Nat.repr i)) := by
      intro i j hij
      simp only [Option.some.injEq] at hij
      exact bar_repr_inj hij
    have : (fun ic : Nat × Cell => some ("|" ++ Nat.repr ic.1)) =
        (fun i : Nat => some ("|" ++ Nat.repr i)) ∘ Prod.fst := rfl
    rw [this, ← List.map_map, List.enum_map_fst]
    exact (List.nodup_range cells.length).map hinj

theorem division_degenerate_witness :
    (1 : Nat) ≤ 1 ∧
    ∃ res, kmeansDivision roundOracle [[1], [2]] [5, 6] 1 50 0 = some res ∧
      res.map (fun e => e.1) = [5, 6] ∧
      res.map (fun e => e.2) =
        (List.range ([5, 6] : List Cell).length).map
          (fun i => some ("|" ++ Nat.repr i)) ∧
      (res.map (fun e => e.2)).Nodup :=
  ⟨by decide, division_degenerate roundOracle [[1], [2]] [5, 6] 1 50 0 (by decide)⟩

/-! Counting helpers relating zip-filter selections to the plain column. -/

theorem zip_filter_snd_length {α β : Type} :
    ∀ (l : List α) (m : List β) (p : β → Bool), l.length = m.length →
      ((l.zip m).filter (fun ab => p ab.2)).length = m.countP p := by
  intro l
  induction l with
  | nil =>
    intro m p h
    cases m with
    | nil => rfl
    | cons b bs => simp at h
  | cons a as ih =>
    intro m p h
    cases m with
    | nil => simp at h
    | cons b bs =>
      have ih' := ih bs p (by simpa using h)
      by_cases hp : p b <;> simp [List.filter_cons, hp, ih']

theorem zip_filter_fst_length {α β : Type} :
    ∀ (l : List α) (m : List β) (p : α → Bool), l.length = m.length →
      ((l.zip m).filter (fun ab => p ab.1)).length = l.countP p := by
  intro l
  induction l with
  | nil => intro m p _; rfl
  | cons a as ih =>
    intro m p h
    cases m with
    | nil => simp at h
    | cons b bs =>
      have ih' := ih bs p (by simpa using h)
      by_cases hp : p a <;> simp [List.filter_cons, hp, ih']

/-- The cells of the group labelled v are exactly the positions of the
column carrying v, so their number is the count of v in the column. -/
theorem mergeGroups_sizes (obsNames : List Cell) (groupCol : List String)
    (hlen : obsNames.length = groupCol.length) :
    ∀ gv ∈ mergeGroups obsNames groupCol, gv.2.length = groupCol.count gv.1 := by
  intro gv hgv
  rw [mergeGroups] at hgv
  rcases List.mem_map.mp hgv with ⟨v, _, rfl⟩
  simp only [List.length_map]
  rw [zip_filter_snd_length obsNames groupCol (fun b => b == v) hlen]
  rfl

/-- mapM over Except returns the shared error message as soon as every
element either succeeds or fails with that message and at least one
fails. -/
theorem mapM_error_of_mem {α β : Type} (g : α → Except String β) (msg : String) :
    ∀ l : List α, (∀ y ∈ l, g y = Except.error msg ∨ ∃ r, g y = Except.ok r) →
      (∃ x ∈ l, g x = Except.error msg) → l.mapM g = Except.error msg := by
  intro l
  induction l with
  | nil => intro _ hex; simp at hex
  | cons a as ih =>
    intro hall hex
    rcases hall a (List.mem_cons_self a as) with ha | ⟨r, hr⟩
    · rw [List.mapM_cons, ha]
      rfl
    · have hex' : ∃ x ∈ as, g x = Except.error msg := by
        rcases hex with ⟨x, hx, hgx⟩
        rcases List.mem_cons.mp hx with rfl | hxs
        · rw [hr] at hgx; exact absurd hgx (by simp)
        · exact ⟨x, hxs, hgx⟩
      rw [List.mapM_cons, hr, ih (fun y hy => hall y (List.mem_cons_of_mem a hy)) hex']
      rfl

/-- C6 counterexample: a call of the aggregator with an unrecognized method
on an input whose pseudo-cell groups are all singletons does not fail; it
returns a reduced dataset. -/
theorem merge_invalid_method_ok_example :
    mergePseudoCell [[1, 2], [3, 4]] [0, 1] ["g", "h"] "bogus" (fun l => l.headD 0) =
      Except.ok [⟨"g", 1, [1, 2]⟩, ⟨"h", 1, [3, 4]⟩] := by
  rfl

/-- C6 amended: a call of the aggregator with a method outside
sum/mean/median/downsample fails with the invalid-configuration ValueError,
returning no dataset, provided at least one pseudo-cell group has two or
more cells; groups of one cell never consult the method (see the
singleton claim). -/
theorem merge_invalid_method_error (X : Mat) (obsNames : List Cell)
    (groupCol : List String) (af : String) (pick : List Cell → Cell)
    (hlen : obsNames.length = groupCol.length)
    (hsum : af ≠ "sum") (hmean : af ≠ "mean") (hmedian : af ≠ "median")
    (hdown : af ≠ "downsample") (hbig : ∃ v, 2 ≤ groupCol.count v) :
    mergePseudoCell X obsNames groupCol af pick =
      Except.error ("aggregate_func can only be [sum, mean, median], got " ++ af) := by
  rcases hbig with ⟨v, hv⟩
  have hsizes := mergeGroups_sizes obsNames groupCol hlen
  apply mapM_error_of_mem
  · intro gv hgv
    by_cases h1 : gv.2.length = 1
    · right
      exact ⟨_, by rw [mergeOne, if_pos h1]⟩
    · left
      rw [mergeOne, if_neg h1, if_neg hsum, if_neg hmean, if_neg hmedian, if_neg hdown]
  · have hvmem : v ∈ groupCol := by
      by_contra hn
      have h0 : List.count v groupCol = 0 := List.count_eq_zero.mpr hn
      omega
    refine ⟨(v, ((obsNames.zip groupCol).filter (fun p => p.2 == v)).map (fun p => p.1)),
      ?_, ?_⟩
    · rw [mergeGroups]
      exact List.mem_map.mpr ⟨v, List.mem_dedup.mpr hvmem, rfl⟩
    · have hn1 : (((obsNames.zip groupCol).filter (fun p => p.2 == v)).map
          (fun p : Cell × String => p.1)).length ≠ 1 := by
        have := mergeGroups_sizes obsNames groupCol hlen
          (v, ((obsNames.zip groupCol).filter (fun p => p.2 == v)).map (fun p => p.1))
          (by rw [mergeGroups]; exact List.mem_map.mpr ⟨v, List.mem_dedup.mpr hvmem, rfl⟩)
        simp only at this
        omega
      rw [mergeOne, if_neg hn1, if_neg hsum, if_neg hmean, if_neg hmedian, if_neg hdown]

theorem merge_invalid_method_error_witness :
    mergePseudoCell [[1, 2], [3, 4]] [0, 1] ["g", "g"] "bogus" (fun l => l.headD 0) =
      Except.error ("aggregate_func can only be [sum, mean, median], got " ++ "bogus") :=
  merge_invalid_method_error [[1, 2], [3, 4]] [0, 1] ["g", "g"] "bogus"
    (fun l => l.headD 0) (by decide) (by decide) (by decide) (by decide) (by decide)
    ⟨"g", by decide⟩

/-! Singleton groups: when every pseudo-cell group has exactly one cell the
aggregate_func dispatch is never reached. -/

/-- In a pair list with pairwise distinct second components, filtering by
the second component of one of its elements selects exactly that element. -/
theorem filter_snd_eq_self {γ : Type} [DecidableEq γ] :
    ∀ (qs : List (Cell × γ)), (qs.map Prod.snd).Nodup →
      ∀ p ∈ qs, qs.filter (fun r => r.2 == p.2) = [p] := by
  intro qs
  induction qs with
  | nil => intro _ p hp; simp at hp
  | cons q qs ih =>
    intro hnd p hp
    simp only [List.map_cons, List.nodup_cons] at hnd
    rcases List.mem_cons.mp hp with rfl | hps
    · have hnil : qs.filter (fun r => r.2 == p.2) = [] := by
        rw [List.filter_eq_nil_iff]
        intro r hr
        simp only [beq_iff_eq]
        intro hrq
        exact hnd.1 (List.mem_map.mpr ⟨r, hr, hrq⟩)
      simp [List.filter_cons, hnil]
    · have hne : ¬ ((q.2 == p.2) = true) := by
        simp only [beq_iff_eq]
        intro hqp
        exact hnd.1 (hqp ▸ List.mem_map.mpr ⟨p, hps, rfl⟩)
      rw [List.filter_cons, if_neg hne]
      exact ih hnd.2 p hps

/-- Mapping each label of a distinct-label pair list to its filter-selected
group reproduces the pair list itself, as singleton groups. -/
theorem selfPairs_groups {γ : Type} [DecidableEq γ] (qs : List (Cell × γ))
    (hnd : (qs.map Prod.snd).Nodup) :
    (qs.map Prod.snd).map
        (fun v => (v, (qs.filter (fun p => p.2 == v)).map (fun p => p.1))) =
      qs.map (fun p => (p.2, [p.1])) := by
  rw [List.map_map]
  apply List.map_congr_left
  intro p hp
  simp only [Function.comp]
  rw [filter_snd_eq_self qs hnd p hp]
  rfl

theorem mergeGroups_of_nodup (obsNames : List Cell) (groupCol : List String)
    (hlen : obsNames.length = groupCol.length) (hnd : groupCol.Nodup) :
    mergeGroups obsNames groupCol =
      (obsNames.zip groupCol).map (fun p => (p.2, [p.1])) := by
  rw [mergeGroups, List.dedup_eq_self.mpr hnd]
  have hsnd : (obsNames.zip groupCol).map Prod.snd = groupCol :=
    List.map_snd_zip obsNames groupCol (le_of_eq hlen.symm)
  have hnd' : ((obsNames.zip groupCol).map Prod.snd).Nodup := by
    rw [hsnd]; exact hnd
  have key := selfPairs_groups (obsNames.zip groupCol) hnd'
  rw [hsnd] at key
  exact key


theorem mapM_ok_map {α β γ : Type} (g : β → Except String γ) (h : α → β)
    (k : α → γ) :
    ∀ l : List α, (∀ x ∈ l, g (h x) = Except.ok (k x)) →
      (l.map h).mapM g = Except.ok (l.map k) := by
  intro l
  induction l with
  | nil => intro _; rfl
  | cons a as ih =>
    intro hall
    rw [List.map_cons, List.mapM_cons, hall a (List.mem_cons_self a as),
      ih (fun x hx => hall x (List.mem_cons_of_mem a hx))]
    rfl

/-- C10: the aggregation method is only consulted for groups of two or more
cells.  When every pseudo-cell group is a singleton (each label occurs on
exactly one cell, i.e. the group column is duplicate-free), the aggregator
succeeds for every aggregate_func string whatsoever, copying each cell's
raw feature row into the output with n_cells = 1. -/
theorem merge_all_singletons_ok (X : Mat) (obsNames : List Cell)
    (groupCol : List String) (af : String) (pick : List Cell → Cell)
    (hlen : obsNames.length = groupCol.length) (hnd : groupCol.Nodup) :
    mergePseudoCell X obsNames groupCol af pick =
      Except.ok ((obsNames.zip groupCol).map
        (fun p => ⟨p.2, 1, varVector obsNames X p.1⟩)) := by
  rw [mergePseudoCell, mergeGroups_of_nodup obsNames groupCol hlen hnd]
  apply mapM_ok_map
  intro p _
  rw [mergeOne]
  rfl

theorem merge_all_singletons_ok_witness :
    mergePseudoCell [[1, 2], [3, 4]] [7, 8] ["g", "h"] "garbage" (fun l => l.headD 0) =
      Except.ok ((([7, 8] : List Cell).zip ["g", "h"]).map
        (fun p => ⟨p.2, 1, varVector [7, 8] [[1, 2], [3, 4]] p.1⟩)) :=
  merge_all_singletons_ok [[1, 2], [3, 4]] [7, 8] ["g", "h"] "garbage"
    (fun l => l.headD 0) (by decide) (by decide)

/-! Determinism: every clustering call of the partitioner is constructed
with random_state = 0, so the run depends only on the seed-0 behaviour of
the clustering subroutine; any ambient randomness (behaviour at other
seeds) cannot influence the labels, and two runs on equal inputs agree. -/

theorem kmeansLoop_seed_congr (o1 o2 : Oracle) (matrix : Mat)
    (cells : List Cell) (mps maxK : Nat)
    (h : ∀ p m, p.random_state = 0 → o1 p m = o2 p m) :
    ∀ (fuel : Nat) (wl : List (List Cell × String)) (f : Cell → Option String),
      kmeansLoop o1 matrix cells mps maxK fuel wl f =
        kmeansLoop o2 matrix cells mps maxK fuel wl f := by
  intro fuel
  induction fuel with
  | zero =>
    intro wl f
    cases wl with
    | nil => rfl
    | cons e rest => rfl
  | succ fuel ih =>
    intro wl f
    cases wl with
    | nil => rfl
    | cons e rest =>
      obtain ⟨S, pfx⟩ := e
      simp only [kmeansLoop]
      have hlab : labeledOf o1 matrix cells S pfx mps maxK =
          labeledOf o2 matrix cells S pfx mps maxK := by
        rw [labeledOf, labeledOf, h (mkMBK (min (S.length / mps + 1) maxK)) _ rfl]
      rw [hlab]
      exact ih _ _

theorem division_seed_congr (o1 o2 : Oracle) (matrix : Mat) (cells : List Cell)
    (mps maxK fuel : Nat)
    (h : ∀ p m, p.random_state = 0 → o1 p m = o2 p m) :
    kmeansDivision o1 matrix cells mps maxK fuel =
      kmeansDivision o2 matrix cells mps maxK fuel := by
  rw [kmeansDivision, kmeansDivision,
    kmeansLoop_seed_congr o1 o2 matrix cells mps maxK h fuel [(cells, "")]
      (fun _ => none)]

theorem option_mapM_congr {α β : Type} (g1 g2 : α → Option β) :
    ∀ l : List α, (∀ x ∈ l, g1 x = g2 x) → l.mapM g1 = l.mapM g2 := by
  intro l
  induction l with
  | nil => intro _; rfl
  | cons a as ih =>
    intro hall
    rw [List.mapM_cons, List.mapM_cons, hall a (List.mem_cons_self a as),
      ih (fun x hx => hall x (List.mem_cons_of_mem a hx))]

/-- C8: the planner and partitioner are deterministic.  Modelling a run as
a choice of clustering behaviour for every possible parameter record, two
runs whose clustering behaviours agree wherever random_state = 0 (as two
executions of the seeded MiniBatchKMeans do, whatever their ambient
process randomness does elsewhere) produce identical label assignments on
identical matrix, cluster assignment and configuration. -/
theorem planner_deterministic (o1 o2 : Oracle)
    (h : ∀ p m, p.random_state = 0 → o1 p m = o2 p m)
    (clusters : List (Cell × String)) (totalMatrix : Mat) (pcs mps fuel : Nat) :
    calculatePseudoGroup o1 clusters totalMatrix pcs mps fuel =
      calculatePseudoGroup o2 clusters totalMatrix pcs mps fuel := by
  rw [calculatePseudoGroup, calculatePseudoGroup]
  have hcong := option_mapM_congr
    (plannerOne o1 clusters totalMatrix pcs mps fuel)
    (plannerOne o2 clusters totalMatrix pcs mps fuel)
    ((clusters.map (fun cc => cc.2)).dedup)
    (fun name _ => by
      rw [plannerOne, plannerOne, division_seed_congr o1 o2 _ _ _ 50 fuel h])
  rw [hcong]

theorem planner_deterministic_witness :
    calculatePseudoGroup roundOracle [(0, "a"), (1, "a"), (2, "b")] [[1], [2], [3]] 2 3 9 =
      calculatePseudoGroup roundOracle [(0, "a"), (1, "a"), (2, "b")] [[1], [2], [3]] 2 3 9 :=
  planner_deterministic roundOracle roundOracle (fun _ _ _ => rfl)
    [(0, "a"), (1, "a"), (2, "b")] [[1], [2], [3]] 2 3 9

/-! No guard against degenerate clustering.  When the clustering subroutine
puts every row of an oversized subset into one output cluster — as
MiniBatchKMeans does on a subset whose rows are all identical — the group
equals the subset, exceeds the bound, and is pushed back unchanged except
for a longer prefix; the loop never terminates and no fallback split
exists anywhere in the code. -/

theorem constOracle_loop_spins :
    ∀ (fuel : Nat) (pfx : String) (f : Cell → Option String),
      kmeansLoop constOracle [[0], [0], [0]] [0, 1, 2] 2 50 fuel
        [([0, 1, 2], pfx)] f = none := by
  intro fuel
  induction fuel with
  | zero => intro pfx f; rfl
  | succ fuel ih =>
    intro pfx f
    have hg : groupsBy [(0, pfx ++ "|" ++ Nat.repr 0), (1, pfx ++ "|" ++ Nat.repr 0),
        (2, pfx ++ "|" ++ Nat.repr 0)] = [(pfx ++ "|" ++ Nat.repr 0, [0, 1, 2])] := by
      rw [groupsBy]
      show (([pfx ++ "|" ++ Nat.repr 0, pfx ++ "|" ++ Nat.repr 0,
        pfx ++ "|" ++ Nat.repr 0]).dedup).map _ = _
      rw [List.dedup_cons_of_mem (List.mem_cons_self _ _),
        List.dedup_cons_of_mem (List.mem_cons_self _ _),
        List.dedup_cons_of_not_mem (List.not_mem_nil _)]
      simp [List.filter]
    show kmeansLoop constOracle [[0], [0], [0]] [0, 1, 2] 2 50 fuel
      (((groupsBy [(0, pfx ++ "|" ++ Nat.repr 0), (1, pfx ++ "|" ++ Nat.repr 0),
          (2, pfx ++ "|" ++ Nat.repr 0)]).filterMap
        (fun gv => if gv.2.length ≤ 2 then none else some (gv.2, gv.1))).reverse ++ [])
      (assignLabels f [(0, pfx ++ "|" ++ Nat.repr 0), (1, pfx ++ "|" ++ Nat.repr 0),
        (2, pfx ++ "|" ++ Nat.repr 0)]) = none
    rw [hg]
    exact ih _ _

/-- C2: the partitioner does NOT guard against a degenerate clustering
assignment.  On three cells with identical embedding rows and bound 2, a
shape-correct clustering behaviour that assigns every row to cluster 0
makes the work loop re-queue the same three-cell subset forever: the run
fails to terminate within any fuel budget, and no fallback split is ever
applied.  This refutes the claimed guard (the spec itself flags the
missing guard as a defect of the original code). -/
theorem division_no_degenerate_guard :
    ∀ fuel : Nat,
      kmeansDivision constOracle [[0], [0], [0]] [0, 1, 2] 2 50 fuel = none := by
  intro fuel
  rw [kmeansDivision, if_neg (by decide)]
  rw [constOracle_loop_spins fuel "" (fun _ => none)]
  rfl

/-! Coverage: at termination of the partitioner every cell carries exactly
one assigned label. -/

theorem lookup_isSome_of_mem {β : Type} :
    ∀ (S : List Cell) (ts : List β) (c : Cell), S.length ≤ ts.length → c ∈ S →
      ((S.zip ts).lookup c).isSome := by
  intro S
  induction S with
  | nil => intro ts c _ hc; simp at hc
  | cons a as ih =>
    intro ts c hlen hc
    cases ts with
    | nil => simp at hlen
    | cons b bs =>
      rw [List.zip_cons_cons, List.lookup_cons]
      cases hca : c == a with
      | true => simp
      | false =>
        have hc' : c ∈ as := by
          rcases List.mem_cons.mp hc with rfl | hmem
          · simp at hca
          · exact hmem
        have hlen' : as.length ≤ bs.length := by
          simp at hlen; omega
        exact ih bs c hlen' hc'

theorem lookup_mem {β : Type} :
    ∀ (l : List (Cell × β)) {c : Cell} {v : β},
      l.lookup c = some v → (c, v) ∈ l := by
  intro l
  induction l with
  | nil => intro c v h; simp [List.lookup] at h
  | cons q qs ih =>
    intro c v h
    obtain ⟨a, b⟩ := q
    rw [List.lookup_cons] at h
    cases hca : c == a with
    | true =>
      rw [hca] at h
      simp only [Option.some.injEq] at h
      have hc := eq_of_beq hca
      subst hc
      subst h
      exact List.mem_cons_self _ _
    | false =>
      rw [hca] at h
      exact List.mem_cons_of_mem _ (ih h)

theorem zip_lookup_none {β : Type} :
    ∀ (S : List Cell) (ts : List β) (c : Cell), c ∉ S →
      (S.zip ts).lookup c = none := by
  intro S
  induction S with
  | nil => intro ts c _; rfl
  | cons a as ih =>
    intro ts c hnm
    cases ts with
    | nil => rfl
    | cons b bs =>
      rw [List.zip_cons_cons, List.lookup_cons]
      have hca : (c == a) = false := by
        apply beq_eq_false_iff_ne.mpr
        intro hc
        exact hnm (hc ▸ List.mem_cons_self a as)
      rw [hca]
      exact ih bs c (fun hmem => hnm (List.mem_cons_of_mem a hmem))

theorem countP_mem_eq_length (cells S : List Cell) (hnc : cells.Nodup)
    (hns : S.Nodup) (hsub : S ⊆ cells) :
    cells.countP (fun a => decide (a ∈ S)) = S.length := by
  rw [List.countP_eq_length_filter]
  have hperm : (cells.filter (fun a => decide (a ∈ S))).Perm S := by
    rw [List.perm_ext_iff_of_nodup (hnc.filter _) hns]
    intro a
    simp only [List.mem_filter, decide_eq_true_eq]
    exact ⟨fun h => h.2, fun h => ⟨hsub h, h⟩⟩
  exact hperm.length_eq

theorem subMatrix_length (matrix : Mat) (cells S : List Cell)
    (hml : matrix.length = cells.length) (hnc : cells.Nodup) (hns : S.Nodup)
    (hsub : S ⊆ cells) : (subMatrix matrix cells S).length = S.length := by
  rw [subMatrix, List.length_map]
  have h1 : ((cells.zip matrix).filter (fun cm => decide (cm.1 ∈ S))).length =
      cells.countP (fun a => decide (a ∈ S)) :=
    zip_filter_fst_length cells matrix (fun a => decide (a ∈ S)) hml.symm
  rw [h1, countP_mem_eq_length cells S hnc hns hsub]

/-- Under a shape-correct oracle the freshly labelled list pairs every cell
of the current subset with a new label. -/
theorem labeledOf_map_fst (oracle : Oracle) (matrix : Mat)
    (cells S : List Cell) (pfx : String) (mps maxK : Nat)
    (hol : OracleLen oracle) (hml : matrix.length = cells.length)
    (hnc : cells.Nodup) (hns : S.Nodup) (hsub : S ⊆ cells) :
    (labeledOf oracle matrix cells S pfx mps maxK).map (fun cv => cv.1) = S := by
  rw [labeledOf]
  apply List.map_fst_zip
  rw [List.length_map, hol, subMatrix_length matrix cells S hml hnc hns hsub]

theorem labeledOf_zip (oracle : Oracle) (matrix : Mat) (cells S : List Cell)
    (pfx : String) (mps maxK : Nat) :
    labeledOf oracle matrix cells S pfx mps maxK =
      S.zip ((oracle (mkMBK (min (S.length / mps + 1) maxK))
        (subMatrix matrix cells S)).map (fun i => pfx ++ "|" ++ Nat.repr i)) := rfl

theorem mem_groupsBy {labeled : List (Cell × String)} {v : String}
    {g : List Cell} (h : (v, g) ∈ groupsBy labeled) :
    v ∈ labeled.map (fun cv => cv.2) ∧
      g = (labeled.filter (fun cv => cv.2 == v)).map (fun cv => cv.1) := by
  rw [groupsBy] at h
  rcases List.mem_map.mp h with ⟨w, hw, heq⟩
  simp only [Prod.mk.injEq] at heq
  obtain ⟨rfl, rfl⟩ := heq
  exact ⟨List.mem_dedup.mp hw, rfl⟩

theorem mem_pushedOf {labeled : List (Cell × String)} {mps : Nat}
    {g : List Cell} {v : String} (h : (g, v) ∈ pushedOf labeled mps) :
    (v, g) ∈ groupsBy labeled ∧ mps < g.length := by
  rw [pushedOf] at h
  rcases List.mem_filterMap.mp h with ⟨gv, hgv, hif⟩
  by_cases hle : gv.2.length ≤ mps
  · rw [if_pos hle] at hif
    exact absurd hif (by simp)
  · rw [if_neg hle] at hif
    simp only [Option.some.injEq, Prod.mk.injEq] at hif
    obtain ⟨rfl, rfl⟩ := hif
    exact ⟨by simpa using hgv, by omega⟩

theorem zip_map_fst_sublist {β : Type} :
    ∀ (S : List Cell) (ts : List β),
      ((S.zip ts).map (fun cv => cv.1)).Sublist S := by
  intro S
  induction S with
  | nil => intro ts; simp
  | cons a as ih =>
    intro ts
    cases ts with
    | nil => simp
    | cons b bs =>
      rw [List.zip_cons_cons, List.map_cons]
      exact List.Sublist.cons₂ a (ih bs)

/-- Every group of the current labelling is a duplicate-free subset of the
current cell subset. -/
theorem group_sublist {S : List Cell} {ts : List String}
    (q : Cell × String → Bool) :
    (((S.zip ts).filter q).map (fun cv => cv.1)).Sublist S :=
  (((S.zip ts).filter_sublist).map (fun cv => cv.1)).trans (zip_map_fst_sublist S ts)

theorem kmeansLoop_coverage (oracle : Oracle) (matrix : Mat)
    (cells : List Cell) (mps maxK : Nat) (hol : OracleLen oracle)
    (hnc : cells.Nodup) (hml : matrix.length = cells.length) :
    ∀ (fuel : Nat) (wl : List (List Cell × String)) (f g : Cell → Option String),
      (∀ e ∈ wl, e.1 ⊆ cells ∧ e.1.Nodup) →
      (∀ c ∈ cells, (∃ e ∈ wl, c ∈ e.1) ∨ (f c).isSome) →
      kmeansLoop oracle matrix cells mps maxK fuel wl f = some g →
      ∀ c ∈ cells, (g c).isSome := by
  intro fuel
  induction fuel with
  | zero =>
    intro wl f g hsub hcov hres c hc
    cases wl with
    | nil =>
      have hfg : f = g := by
        have : some f = some g := hres
        simpa using this
      rcases hcov c hc with ⟨e, he, _⟩ | hs
      · simp at he
      · rw [← hfg]; exact hs
    | cons e rest => simp [kmeansLoop] at hres
  | succ fuel ih =>
    intro wl f g hsub hcov hres c hc
    cases wl with
    | nil =>
      have hfg : f = g := by
        have : some f = some g := hres
        simpa using this
      rcases hcov c hc with ⟨e, he, _⟩ | hs
      · simp at he
      · rw [← hfg]; exact hs
    | cons e rest =>
      obtain ⟨S, pfx⟩ := e
      rw [kmeansLoop] at hres
      have hSsub : S ⊆ cells := (hsub (S, pfx) (List.mem_cons_self _ _)).1
      have hSnd : S.Nodup := (hsub (S, pfx) (List.mem_cons_self _ _)).2
      have hlablen : S.length ≤
          ((oracle (mkMBK (min (S.length / mps + 1) maxK))
            (subMatrix matrix cells S)).map
              (fun i => pfx ++ "|" ++ Nat.repr i)).length := by
        rw [List.length_map, hol, subMatrix_length matrix cells S hml hnc hSnd hSsub]
      refine ih _ _ g ?_ ?_ hres c hc
      · intro e' he'
        rcases List.mem_append.mp he' with hp | hr
        · rw [List.mem_reverse] at hp
          obtain ⟨g', v'⟩ := e'
          have hgb := (mem_pushedOf hp).1
          have hgeq := (mem_groupsBy hgb).2
          rw [labeledOf_zip] at hgeq
          subst hgeq
          constructor
          · exact fun x hx => hSsub ((group_sublist _).subset hx)
          · exact (group_sublist _).nodup hSnd
        · exact hsub e' (List.mem_cons_of_mem _ hr)
      · intro c' hc'
        rcases hcov c' hc' with ⟨e', he', hce'⟩ | hs
        · rcases List.mem_cons.mp he' with rfl | hrest
          · right
            simp only [assignLabels, labeledOf_zip]
            have hlk := lookup_isSome_of_mem S _ c' hlablen hce'
            cases hl : (S.zip ((oracle (mkMBK (min (S.length / mps + 1) maxK))
                (subMatrix matrix cells S)).map
                  (fun i => pfx ++ "|" ++ Nat.repr i))).lookup c' with
            | none => rw [hl] at hlk; simp at hlk
            | some v => rfl
          · left; exact ⟨e', List.mem_append_right _ hrest, hce'⟩
        · right
          simp only [assignLabels]
          cases hl : (labeledOf oracle matrix cells S pfx mps maxK).lookup c' with
          | none => exact hs
          | some v => rfl

/-- Termination of the divider yields a label row per cell, in cell order,
with every label assigned (no NaN left), provided the matrix is aligned
with the duplicate-free cell list and the oracle is shape-correct. -/
theorem division_coverage (oracle : Oracle) (matrix : Mat) (cells : List Cell)
    (mps maxK fuel : Nat) (res : List (Cell × Option String))
    (hol : OracleLen oracle) (hnc : cells.Nodup)
    (hml : matrix.length = cells.length)
    (hres : kmeansDivision oracle matrix cells mps maxK fuel = some res) :
    res.map (fun e => e.1) = cells ∧ ∀ e ∈ res, e.2.isSome := by
  rw [kmeansDivision] at hres
  by_cases hd : mps ≤ 1
  · rw [if_pos hd] at hres
    simp only [Option.some.injEq] at hres
    subst hres
    constructor
    · rw [List.map_map]
      have hcomp : ((fun e : Cell × Option String => e.1) ∘
          (fun ic : Nat × Cell => (ic.2, some ("|" ++ Nat.repr ic.1)))) = Prod.snd := rfl
      rw [hcomp, List.enum_map_snd]
    · intro e he
      rcases List.mem_map.mp he with ⟨ic, _, rfl⟩
      rfl
  · rw [if_neg hd] at hres
    cases hk : kmeansLoop oracle matrix cells mps maxK fuel [(cells, "")]
        (fun _ => none) with
    | none => rw [hk] at hres; simp at hres
    | some gfun =>
      rw [hk] at hres
      simp only [Option.map_some', Option.some.injEq] at hres
      subst hres
      have hcover := kmeansLoop_coverage oracle matrix cells mps maxK hol hnc hml
        fuel [(cells, "")] (fun _ => none) gfun
        (by
          intro e he
          rcases List.mem_cons.mp he with rfl | habs
          · exact ⟨fun x hx => hx, hnc⟩
          · simp at habs)
        (by
          intro c hc
          exact Or.inl ⟨(cells, ""), List.mem_cons_self _ _, hc⟩)
        hk
      constructor
      · rw [List.map_map]
        have hcomp : ((fun e : Cell × Option String => e.1) ∘
            (fun c : Cell => (c, gfun c))) = id := rfl
        rw [hcomp, List.map_id]
      · intro e he
        rcases List.mem_map.mp he with ⟨c, hc, rfl⟩
        exact hcover c hc

theorem option_mapM_some {α β : Type} (g : α → Option β) :
    ∀ (l : List α) (rs : List β), l.mapM g = some rs →
      List.Forall₂ (fun x r => g x = some r) l rs := by
  intro l
  induction l with
  | nil =>
    intro rs h
    rw [List.mapM_nil] at h
    simp only [Option.pure_def, Option.some.injEq] at h
    subst h
    exact List.Forall₂.nil
  | cons a as ih =>
    intro rs h
    rw [List.mapM_cons] at h
    cases hga : g a with
    | none => rw [hga] at h; simp at h
    | some b =>
      rw [hga] at h
      cases hmas : as.mapM g with
      | none => rw [hmas] at h; simp at h
      | some bs =>
        rw [hmas] at h
        simp only [Option.pure_def, Option.bind_some, Option.bind_eq_bind,
          Option.some_bind, Option.some.injEq] at h
        subst h
        exact List.Forall₂.cons hga (ih bs hmas)

theorem forall₂_mem_right {α β : Type} {R : α → β → Prop} :
    ∀ {l : List α} {rs : List β}, List.Forall₂ R l rs →
      ∀ r ∈ rs, ∃ x ∈ l, R x r := by
  intro l rs h
  induction h with
  | nil => intro r hr; simp at hr
  | cons hR _ ih =>
    intro r hr
    rcases List.mem_cons.mp hr with rfl | hmem
    · exact ⟨_, List.mem_cons_self _ _, hR⟩
    · rcases ih r hmem with ⟨x, hx, hxR⟩
      exact ⟨x, List.mem_cons_of_mem _ hx, hxR⟩

theorem forall₂_map_eq {α β γ : Type} {R : α → β → Prop} (f : β → γ)
    (k : α → γ) :
    ∀ {l : List α} {rs : List β}, List.Forall₂ R l rs →
      (∀ x r, R x r → f r = k x) → rs.map f = l.map k := by
  intro l rs h
  induction h with
  | nil => intro _; rfl
  | cons hR _ ih =>
    intro hfk
    rw [List.map_cons, List.map_cons, hfk _ _ hR, ih hfk]

/-- Partition permutation: splitting a list by the distinct values of a key
and concatenating the parts reproduces the list up to permutation. -/
theorem flatten_filter_perm {α γ : Type} [DecidableEq γ] (key : α → γ) :
    ∀ (names : List γ) (l : List α), names.Nodup →
      (∀ x ∈ l, key x ∈ names) →
      ((names.map (fun n => l.filter (fun x => key x == n))).flatten).Perm l := by
  intro names
  induction names with
  | nil =>
    intro l _ hall
    cases l with
    | nil => simp
    | cons x xs => exact absurd (hall x (List.mem_cons_self x xs)) (by simp)
  | cons n ns ih =>
    intro l hnd hall
    simp only [List.map_cons, List.flatten_cons]
    rw [List.nodup_cons] at hnd
    have hstep : ∀ m ∈ ns, l.filter (fun x => key x == m) =
        (l.filter (fun x => !(key x == n))).filter (fun x => key x == m) := by
      intro m hm
      rw [List.filter_filter]
      apply List.filter_congr
      intro x _
      by_cases hx : key x = m
      · have hmn : m ≠ n := fun hcon => hnd.1 (hcon ▸ hm)
        simp [hx, hmn]
      · simp [hx]
    have hperm2 : ((ns.map (fun m => l.filter (fun x => key x == m))).flatten).Perm
        (l.filter (fun x => !(key x == n))) := by
      rw [List.map_congr_left hstep]
      apply ih
      · exact hnd.2
      · intro x hx
        rcases List.mem_filter.mp hx with ⟨hxl, hxn⟩
        rcases List.mem_cons.mp (hall x hxl) with hkey | hmem
        · rw [hkey] at hxn; simp at hxn
        · exact hmem
    have h1 : List.Perm (l.filter (fun x => key x == n) ++
        (ns.map (fun m => l.filter (fun x => key x == m))).flatten)
        (l.filter (fun x => key x == n) ++ l.filter (fun x => !(key x == n))) :=
      hperm2.append_left _
    exact h1.trans (List.filter_append_perm _ l)

/-- A successful per-cluster record covers exactly the cluster's cells, in
order, with every label assigned. -/
theorem plannerOne_some (oracle : Oracle) (clusters : List (Cell × String))
    (totalMatrix : Mat) (pcs mps fuel : Nat) (name : String)
    (r : List (Cell × Option String)) (hol : OracleLen oracle)
    (hnd : (clusters.map (fun cc => cc.1)).Nodup)
    (hml : totalMatrix.length = clusters.length)
    (h : plannerOne oracle clusters totalMatrix pcs mps fuel name = some r) :
    r.map (fun e => e.1) =
      (clusters.filter (fun cc => cc.2 == name)).map (fun cc => cc.1) ∧
    ∀ e ∈ r, e.2.isSome := by
  simp only [plannerOne] at h
  cases hk : kmeansDivision oracle
    (((clusters.zip totalMatrix).filter (fun cm => cm.1.2 == name)).map
      (fun cm => cm.2))
    ((clusters.filter (fun cc => cc.2 == name)).map (fun cc => cc.1))
    (pseudoSizeCap
      ((clusters.filter (fun cc => cc.2 == name)).map (fun cc => cc.1)).length
      pcs mps) 50 fuel with
  | none => rw [hk] at h; simp at h
  | some res =>
    rw [hk] at h
    simp only [Option.map_some', Option.some.injEq] at h
    subst h
    have hcsnd : ((clusters.filter (fun cc => cc.2 == name)).map
        (fun cc => cc.1)).Nodup :=
      (((clusters.filter_sublist).map (fun cc => cc.1))).nodup hnd
    have hmlen : (((clusters.zip totalMatrix).filter
        (fun cm => cm.1.2 == name)).map (fun cm => cm.2)).length =
        ((clusters.filter (fun cc => cc.2 == name)).map (fun cc => cc.1)).length := by
      rw [List.length_map, List.length_map]
      have h1 : ((clusters.zip totalMatrix).filter
          (fun cm => cm.1.2 == name)).length =
          clusters.countP (fun cc => cc.2 == name) :=
        zip_filter_fst_length clusters totalMatrix (fun cc => cc.2 == name) hml.symm
      rw [h1, List.countP_eq_length_filter]
    have hdiv := division_coverage oracle _ _ _ 50 fuel res hol hcsnd hmlen hk
    constructor
    · rw [List.map_map]
      have hcomp : ((fun e : Cell × Option String => e.1) ∘
          (fun co : Cell × Option String =>
            (co.1, co.2.map (fun s => name ++ "::" ++ s)))) =
          (fun e : Cell × Option String => e.1) := rfl
      rw [hcomp]
      exact hdiv.1
    · intro e he
      rcases List.mem_map.mp he with ⟨co, hco, rfl⟩
      have := hdiv.2 co hco
      cases hsnd : co.2 with
      | none => rw [hsnd] at this; simp at this
      | some s => simp [hsnd]

/-- C3: the label mapping produced by _calculate_pseudo_group contains
exactly one entry for every cell of the cluster assignment — the record
cells are a permutation of the input cells, each input cell heads exactly
one record, and every record carries an assigned label. -/
theorem planner_coverage (oracle : Oracle) (clusters : List (Cell × String))
    (totalMatrix : Mat) (pcs mps fuel : Nat)
    (recs : List (Cell × Option String)) (hol : OracleLen oracle)
    (hnd : (clusters.map (fun cc => cc.1)).Nodup)
    (hml : totalMatrix.length = clusters.length)
    (hres : calculatePseudoGroup oracle clusters totalMatrix pcs mps fuel =
      some recs) :
    List.Perm (recs.map (fun e => e.1)) (clusters.map (fun cc => cc.1)) ∧
    (∀ c ∈ clusters.map (fun cc => cc.1),
      recs.countP (fun e => e.1 == c) = 1) ∧
    (∀ e ∈ recs, e.2.isSome) := by
  rw [calculatePseudoGroup] at hres
  cases hm : ((clusters.map (fun cc => cc.2)).dedup).mapM
      (plannerOne oracle clusters totalMatrix pcs mps fuel) with
  | none => rw [hm] at hres; simp at hres
  | some rs =>
    rw [hm] at hres
    simp only [Option.map_some', Option.some.injEq] at hres
    subst hres
    have hfa := option_mapM_some _ _ _ hm
    have hmapfst : rs.map (fun r => r.map (fun e => e.1)) =
        ((clusters.map (fun cc => cc.2)).dedup).map
          (fun n => (clusters.filter (fun cc => cc.2 == n)).map
            (fun cc => cc.1)) :=
      forall₂_map_eq _ _ hfa
        (fun name r hr =>
          (plannerOne_some oracle clusters totalMatrix pcs mps fuel name r
            hol hnd hml hr).1)
    have hperm0 : List.Perm ((((clusters.map (fun cc => cc.2)).dedup).map
        (fun n => clusters.filter (fun cc => cc.2 == n))).flatten) clusters :=
      flatten_filter_perm (fun cc => cc.2) _ clusters
        (List.nodup_dedup _)
        (fun x hx => List.mem_dedup.mpr (List.mem_map.mpr ⟨x, hx, rfl⟩))
    have hpermfst : List.Perm (rs.flatten.map (fun e => e.1))
        (clusters.map (fun cc => cc.1)) := by
      rw [List.map_flatten, hmapfst]
      have hsplit : ((clusters.map (fun cc => cc.2)).dedup).map
          (fun n => (clusters.filter (fun cc => cc.2 == n)).map
            (fun cc => cc.1)) =
          ((((clusters.map (fun cc => cc.2)).dedup).map
            (fun n => clusters.filter (fun cc => cc.2 == n))).map
              (List.map (fun cc => cc.1))) := by
        rw [List.map_map]
        rfl
      rw [hsplit, ← List.map_flatten]
      exact hperm0.map _
    refine ⟨hpermfst, ?_, ?_⟩
    · intro c hc
      have h1 : rs.flatten.countP (fun e => e.1 == c) =
          (rs.flatten.map (fun e => e.1)).countP (fun a => a == c) := by
        rw [List.countP_map]
        rfl
      have h2 : (rs.flatten.map (fun e => e.1)).countP (fun a => a == c) =
          (clusters.map (fun cc => cc.1)).countP (fun a => a == c) :=
        hpermfst.countP_eq _
      have h3 : (clusters.map (fun cc => cc.1)).countP (fun a => a == c) = 1 := by
        have hcount := List.count_eq_one_of_mem hnd hc
        exact hcount
      rw [h1, h2, h3]
    · intro e he
      rcases List.mem_flatten.mp he with ⟨r, hr, her⟩
      rcases forall₂_mem_right hfa r hr with ⟨name, _, hgr⟩
      exact (plannerOne_some oracle clusters totalMatrix pcs mps fuel name r
        hol hnd hml hgr).2 e her

theorem planner_coverage_witness :
    List.Perm
      (([((0 : Cell), some "a::|0"), (1, some "a::|1"),
        (2, some "b::|0")].map (fun e => e.1)))
      (([((0 : Cell), "a"), (1, "a"), (2, "b")].map (fun cc => cc.1))) ∧
    (∀ c ∈ ([((0 : Cell), "a"), (1, "a"), (2, "b")].map (fun cc => cc.1)),
      ([((0 : Cell), some "a::|0"), (1, some "a::|1"),
        (2, some "b::|0")].countP (fun e => e.1 == c)) = 1) ∧
    (∀ e ∈ [((0 : Cell), some "a::|0"), (1, some "a::|1"),
      (2, some "b::|0")], e.2.isSome) :=
  planner_coverage roundOracle [(0, "a"), (1, "a"), (2, "b")] [[1], [2], [3]]
    2 3 9 [(0, some "a::|0"), (1, some "a::|1"), (2, some "b::|0")]
    roundOracle_len (by decide) (by decide) (by rfl)

/-! Cluster preservation: partition labels contain no colon, so the
cluster-name prefix before the double colon is recoverable and two cells
sharing a final label must come from the same cluster. -/

theorem zip_map_snd_subset {β : Type} :
    ∀ (S : List Cell) (ts : List β), ∀ x ∈ (S.zip ts).map (fun cv => cv.2),
      x ∈ ts := by
  intro S
  induction S with
  | nil => intro ts x hx; simp at hx
  | cons a as ih =>
    intro ts x hx
    cases ts with
    | nil => simp at hx
    | cons b bs =>
      rw [List.zip_cons_cons, List.map_cons] at hx
      rcases List.mem_cons.mp hx with rfl | hmem
      · exact List.mem_cons_self _ _
      · exact List.mem_cons_of_mem _ (ih bs x hmem)

theorem labeled_snd_shape {oracle : Oracle} {matrix : Mat}
    {cells S : List Cell} {pfx : String} {mps maxK : Nat} {v : String}
    (hv : v ∈ (labeledOf oracle matrix cells S pfx mps maxK).map
      (fun cv => cv.2)) :
    ∃ i, v = pfx ++ "|" ++ Nat.repr i := by
  rw [labeledOf_zip] at hv
  have hv' := zip_map_snd_subset S _ v hv
  rcases List.mem_map.mp hv' with ⟨i, _, rfl⟩
  exact ⟨i, rfl⟩

theorem colon_free_label {pfx : String} (hp : ':' ∉ pfx.data) (i : Nat) :
    ':' ∉ (pfx ++ "|" ++ Nat.repr i).data := by
  rw [String.data_append, String.data_append]
  intro h
  rcases List.mem_append.mp h with h1 | h2
  · rcases List.mem_append.mp h1 with ha | hb
    · exact hp ha
    · simp at hb
  · exact colon_not_mem_repr i h2

theorem kmeansLoop_colon_free (oracle : Oracle) (matrix : Mat)
    (cells : List Cell) (mps maxK : Nat) :
    ∀ (fuel : Nat) (wl : List (List Cell × String)) (f g : Cell → Option String),
      (∀ e ∈ wl, ':' ∉ e.2.data) →
      (∀ c v, f c = some v → ':' ∉ v.data) →
      kmeansLoop oracle matrix cells mps maxK fuel wl f = some g →
      ∀ c v, g c = some v → ':' ∉ v.data := by
  intro fuel
  induction fuel with
  | zero =>
    intro wl f g hwl hf hres
    cases wl with
    | nil =>
      have hfg : f = g := by
        have : some f = some g := hres
        simpa using this
      exact hfg ▸ hf
    | cons e rest => simp [kmeansLoop] at hres
  | succ fuel ih =>
    intro wl f g hwl hf hres
    cases wl with
    | nil =>
      have hfg : f = g := by
        have : some f = some g := hres
        simpa using this
      exact hfg ▸ hf
    | cons e rest =>
      obtain ⟨S, pfx⟩ := e
      rw [kmeansLoop] at hres
      have hpfx : ':' ∉ pfx.data := hwl (S, pfx) (List.mem_cons_self _ _)
      refine ih _ _ g ?_ ?_ hres
      · intro e' he'
        rcases List.mem_append.mp he' with hp | hr
        · rw [List.mem_reverse] at hp
          obtain ⟨g', v'⟩ := e'
          have hgb := (mem_pushedOf hp).1
          have hvmem := (mem_groupsBy hgb).1
          rcases labeled_snd_shape hvmem with ⟨i, rfl⟩
          exact colon_free_label hpfx i
        · exact hwl e' (List.mem_cons_of_mem _ hr)
      · intro c v hv
        simp only [assignLabels] at hv
        cases hl : (labeledOf oracle matrix cells S pfx mps maxK).lookup c with
        | some w =>
          rw [hl] at hv
          simp only [Option.some.injEq] at hv
          subst hv
          have hmem := lookup_mem _ hl
          have hsnd : w ∈ (labeledOf oracle matrix cells S pfx mps maxK).map
              (fun cv => cv.2) := List.mem_map.mpr ⟨(c, w), hmem, rfl⟩
          rcases labeled_snd_shape hsnd with ⟨i, rfl⟩
          exact colon_free_label hpfx i
        | none =>
          rw [hl] at hv
          exact hf c v hv

theorem division_colon_free (oracle : Oracle) (matrix : Mat)
    (cells : List Cell) (mps maxK fuel : Nat)
    (res : List (Cell × Option String))
    (hres : kmeansDivision oracle matrix cells mps maxK fuel = some res) :
    ∀ e ∈ res, ∀ v, e.2 = some v → ':' ∉ v.data := by
  rw [kmeansDivision] at hres
  by_cases hd : mps ≤ 1
  · rw [if_pos hd] at hres
    simp only [Option.some.injEq] at hres
    subst hres
    intro e he v hv
    rcases List.mem_map.mp he with ⟨ic, _, rfl⟩
    simp only [Option.some.injEq] at hv
    subst hv
    intro hcol
    rw [String.data_append] at hcol
    rcases List.mem_append.mp hcol with h1 | h2
    · simp at h1
    · exact colon_not_mem_repr ic.1 h2
  · rw [if_neg hd] at hres
    cases hk : kmeansLoop oracle matrix cells mps maxK fuel [(cells, "")]
        (fun _ => none) with
    | none => rw [hk] at hres; simp at hres
    | some gfun =>
      rw [hk] at hres
      simp only [Option.map_some', Option.some.injEq] at hres
      subst hres
      intro e he v hv
      rcases List.mem_map.mp he with ⟨c, _, rfl⟩
      refine kmeansLoop_colon_free oracle matrix cells mps maxK fuel
        [(cells, "")] (fun _ => none) gfun ?_ ?_ hk c v hv
      · intro e' he'
        rcases List.mem_cons.mp he' with rfl | habs
        · simp
        · simp at habs
      · intro c' v' hv'
        simp at hv'

theorem lookup_eq_of_mem_of_nodup :
    ∀ (l : List (Cell × String)) (c : Cell) (w : String),
      (l.map (fun cc => cc.1)).Nodup → (c, w) ∈ l → l.lookup c = some w := by
  intro l
  induction l with
  | nil => intro c w _ hm; simp at hm
  | cons q qs ih =>
    intro c w hnd hm
    obtain ⟨a, b⟩ := q
    rw [List.map_cons, List.nodup_cons] at hnd
    rw [List.lookup_cons]
    rcases List.mem_cons.mp hm with heq | hmem
    · simp only [Prod.mk.injEq] at heq
      obtain ⟨rfl, rfl⟩ := heq
      simp
    · have hca : (c == a) = false := by
        apply beq_eq_false_iff_ne.mpr
        intro hc
        subst hc
        exact hnd.1 (List.mem_map.mpr ⟨(c, w), hmem, rfl⟩)
      rw [hca]
      exact ih c w hnd.2 hmem

/-- Two cluster-prefixed labels agree only on equal cluster names, as long
as the partition suffixes are colon-free. -/
theorem cluster_prefix_inj {n1 n2 d1 d2 : String} (h1 : ':' ∉ d1.data)
    (h2 : ':' ∉ d2.data) (h : n1 ++ "::" ++ d1 = n2 ++ "::" ++ d2) :
    n1 = n2 ∧ d1 = d2 := by
  have hd := congrArg String.data h
  rw [String.data_append, String.data_append, String.data_append,
    String.data_append] at hd
  have hrev := congrArg List.reverse hd
  simp only [List.reverse_append] at hrev
  have hshape : d1.data.reverse ++ ':' :: ':' :: n1.data.reverse =
      d2.data.reverse ++ ':' :: ':' :: n2.data.reverse := by
    have hcc : (("::" : String).data).reverse = [':', ':'] := rfl
    simpa [hcc, List.append_assoc] using hrev
  have hsep := colon2_sep_inj d1.data.reverse d2.data.reverse
    (by intro hc; exact h1 (List.mem_reverse.mp hc))
    (by intro hc; exact h2 (List.mem_reverse.mp hc)) hshape
  constructor
  · apply String.ext
    have := congrArg List.reverse hsep.2
    simpa using this
  · apply String.ext
    have := congrArg List.reverse hsep.1
    simpa using this

/-- Every record entry of one cluster's run is headed by a cell of that
cluster and labelled with the cluster name, the double colon and a
colon-free partition path. -/
theorem plannerOne_entry (oracle : Oracle) (clusters : List (Cell × String))
    (totalMatrix : Mat) (pcs mps fuel : Nat) (name : String)
    (r : List (Cell × Option String)) (hol : OracleLen oracle)
    (hnd : (clusters.map (fun cc => cc.1)).Nodup)
    (hml : totalMatrix.length = clusters.length)
    (h : plannerOne oracle clusters totalMatrix pcs mps fuel name = some r) :
    ∀ e ∈ r, clusters.lookup e.1 = some name ∧
      ∀ v, e.2 = some v → ∃ d, ':' ∉ d.data ∧ v = name ++ "::" ++ d := by
  have hcover := plannerOne_some oracle clusters totalMatrix pcs mps fuel name r
    hol hnd hml h
  simp only [plannerOne] at h
  cases hk : kmeansDivision oracle
    (((clusters.zip totalMatrix).filter (fun cm => cm.1.2 == name)).map
      (fun cm => cm.2))
    ((clusters.filter (fun cc => cc.2 == name)).map (fun cc => cc.1))
    (pseudoSizeCap
      ((clusters.filter (fun cc => cc.2 == name)).map (fun cc => cc.1)).length
      pcs mps) 50 fuel with
  | none => rw [hk] at h; simp at h
  | some res =>
    rw [hk] at h
    simp only [Option.map_some', Option.some.injEq] at h
    subst h
    intro e he
    rcases List.mem_map.mp he with ⟨co, hco, rfl⟩
    constructor
    · have hfst : co.1 ∈ (clusters.filter (fun cc => cc.2 == name)).map
          (fun cc => cc.1) := by
        rw [← hcover.1]
        exact List.mem_map.mpr ⟨(co.1, co.2.map (fun s => name ++ "::" ++ s)),
          List.mem_map.mpr ⟨co, hco, rfl⟩, rfl⟩
      rcases List.mem_map.mp hfst with ⟨cc, hcc, hcc1⟩
      rcases List.mem_filter.mp hcc with ⟨hccmem, hccname⟩
      have hname : cc.2 = name := by simpa using hccname
      have hpair : (co.1, name) ∈ clusters := by
        have : cc = (co.1, name) := by
          obtain ⟨x, y⟩ := cc
          simp only at hcc1 hname
          rw [hcc1, hname]
        exact this ▸ hccmem
      exact lookup_eq_of_mem_of_nodup clusters co.1 name hnd hpair
    · intro v hv
      simp only at hv
      cases hs : co.2 with
      | none => rw [hs] at hv; simp at hv
      | some s =>
        rw [hs] at hv
        simp only [Option.map_some', Option.some.injEq] at hv
        subst hv
        exact ⟨s, division_colon_free oracle _ _ _ 50 fuel res hk co hco s hs, rfl⟩

/-- Entries of the planner output sharing a label share the cluster: the
label determines the cluster name before the final double colon. -/
theorem recs_label_cluster (oracle : Oracle)
    (clusters : List (Cell × String)) (totalMatrix : Mat)
    (pcs mps fuel : Nat) (recs : List (Cell × Option String))
    (hol : OracleLen oracle) (hnd : (clusters.map (fun cc => cc.1)).Nodup)
    (hml : totalMatrix.length = clusters.length)
    (hres : calculatePseudoGroup oracle clusters totalMatrix pcs mps fuel =
      some recs) :
    ∀ e1 ∈ recs, ∀ e2 ∈ recs, ∀ v : String, e1.2 = some v → e2.2 = some v →
      clusters.lookup e1.1 = clusters.lookup e2.1 ∧
      ∃ name d, clusters.lookup e1.1 = some name ∧ v = name ++ "::" ++ d ∧
        ':' ∉ d.data := by
  rw [calculatePseudoGroup] at hres
  cases hm : ((clusters.map (fun cc => cc.2)).dedup).mapM
      (plannerOne oracle clusters totalMatrix pcs mps fuel) with
  | none => rw [hm] at hres; simp at hres
  | some rs =>
    rw [hm] at hres
    simp only [Option.map_some', Option.some.injEq] at hres
    subst hres
    have hfa := option_mapM_some _ _ _ hm
    intro e1 he1 e2 he2 v hv1 hv2
    rcases List.mem_flatten.mp he1 with ⟨r1, hr1, her1⟩
    rcases List.mem_flatten.mp he2 with ⟨r2, hr2, her2⟩
    rcases forall₂_mem_right hfa r1 hr1 with ⟨name1, _, hg1⟩
    rcases forall₂_mem_right hfa r2 hr2 with ⟨name2, _, hg2⟩
    have hent1 := plannerOne_entry oracle clusters totalMatrix pcs mps fuel
      name1 r1 hol hnd hml hg1 e1 her1
    have hent2 := plannerOne_entry oracle clusters totalMatrix pcs mps fuel
      name2 r2 hol hnd hml hg2 e2 her2
    rcases hent1.2 v hv1 with ⟨d1, hd1free, hd1⟩
    rcases hent2.2 v hv2 with ⟨d2, hd2free, hd2⟩
    have hnames := cluster_prefix_inj hd1free hd2free (hd1.symm.trans hd2)
    constructor
    · rw [hent1.1, hent2.1, hnames.1]
    · exact ⟨name1, d1, hent1.1, hd1, hd1free⟩

/-- C7: cells sharing a pseudo-cell label have identical cluster
assignments; every label is the cell's cluster name followed by the double
colon and the colon-free partition path, making labels of different
clusters distinct. -/
theorem planner_cluster_preservation (oracle : Oracle)
    (clusters : List (Cell × String)) (totalMatrix : Mat)
    (pcs mps fuel : Nat) (recs : List (Cell × Option String))
    (hol : OracleLen oracle) (hnd : (clusters.map (fun cc => cc.1)).Nodup)
    (hml : totalMatrix.length = clusters.length)
    (hres : calculatePseudoGroup oracle clusters totalMatrix pcs mps fuel =
      some recs) :
    ∀ e1 ∈ recs, ∀ e2 ∈ recs, ∀ v : String, e1.2 = some v → e2.2 = some v →
      clusters.lookup e1.1 = clusters.lookup e2.1 ∧
      ∃ name d, clusters.lookup e1.1 = some name ∧ v = name ++ "::" ++ d ∧
        ':' ∉ d.data :=
  recs_label_cluster oracle clusters totalMatrix pcs mps fuel recs
    hol hnd hml hres

theorem planner_cluster_preservation_witness :
    List.lookup ((0, some "a::|0") : Cell × Option String).1
        [((0 : Cell), "a"), (1, "a"), (2, "b")] =
      List.lookup ((0, some "a::|0") : Cell × Option String).1
        [((0 : Cell), "a"), (1, "a"), (2, "b")] ∧
    ∃ name d,
      List.lookup ((0, some "a::|0") : Cell × Option String).1
          [((0 : Cell), "a"), (1, "a"), (2, "b")] =
        some name ∧ "a::|0" = name ++ "::" ++ d ∧ ':' ∉ d.data :=
  planner_cluster_preservation roundOracle
    [(0, "a"), (1, "a"), (2, "b")] [[1], [2], [3]] 2 3 9
    [(0, some "a::|0"), (1, some "a::|1"), (2, some "b::|0")]
    roundOracle_len (by decide) (by rfl) (by rfl)
    (0, some "a::|0") (by decide) (0, some "a::|0") (by decide)
    "a::|0" rfl rfl

/-! Size bound.  The partition-path labels are built as
prefix ++ bar ++ decimal digits; since the digits contain no bar, a label
written in one iteration can never collide with a label of another
iteration, and at termination every label group is one settled group of
size at most the bound. -/

/-- x extended by the bar separator starts v: v lies strictly inside the
partition subtree rooted at x. -/
def barExt (x v : List Char) : Prop := (x ++ ['|']) <+: v

instance (x v : List Char) : Decidable (barExt x v) := by
  rw [barExt]
  infer_instance

theorem label_data (pfx : String) (i : Nat) :
    (pfx ++ "|" ++ Nat.repr i).data = pfx.data ++ '|' :: (Nat.repr i).data := by
  rw [String.data_append, String.data_append, List.append_assoc]
  rfl

theorem barExt_of_le {p q v : List Char} (h : p ++ ['|'] <+: q)
    (hqv : barExt q v) : barExt p v :=
  (h.trans (List.prefix_append q ['|'])).trans hqv

theorem bar_le_label (p : List Char) (rj : List Char) :
    p ++ ['|'] <+: p ++ '|' :: rj := by
  rw [List.prefix_append_right_inj]
  exact ⟨rj, rfl⟩

theorem not_barExt_self {x : List Char} : ¬ barExt x x := by
  intro h
  have := h.length_le
  simp at this

theorem not_barExt_ext {p ri rj : List Char} (hj : '|' ∉ rj) :
    ¬ barExt (p ++ '|' :: ri) (p ++ '|' :: rj) := by
  intro h
  rw [barExt, List.append_assoc] at h
  rw [List.prefix_append_right_inj] at h
  rw [List.cons_append, List.cons_prefix_cons] at h
  have hmem : '|' ∈ ri ++ ['|'] := List.mem_append.mpr (Or.inr (by simp))
  exact hj (h.2.subset hmem)

theorem not_barExt_shift {p' p rj : List Char} (h1 : p' ≠ p)
    (h2 : ¬ barExt p' p) (h3 : ¬ barExt p p') :
    ¬ barExt p' (p ++ '|' :: rj) := by
  intro h
  rw [barExt] at h
  rcases Nat.lt_trichotomy p'.length p.length with hlt | heq | hgt
  · apply h2
    rw [barExt]
    refine List.prefix_of_prefix_length_le h (List.prefix_append p ('|' :: rj)) ?_
    simp
    omega
  · apply h1
    have hp' : p' <+: p ++ '|' :: rj :=
      (List.prefix_append p' ['|']).trans h
    have := List.prefix_of_prefix_length_le hp' (List.prefix_append p ('|' :: rj))
      (by omega)
    exact this.eq_of_length heq
  · apply h3
    rw [barExt]
    have hpb : p ++ ['|'] <+: p ++ '|' :: rj := bar_le_label p rj
    have hstep : p ++ ['|'] <+: p' ++ ['|'] :=
      List.prefix_of_prefix_length_le hpb h (by simp; omega)
    refine List.prefix_of_prefix_length_le hstep (List.prefix_append p' ['|']) ?_
    simp
    omega

/-- In a pair list with duplicate-free first components an element is
determined by its first component. -/
theorem mem_fst_unique {β : Type} :
    ∀ {l : List (Cell × β)}, (l.map (fun cv => cv.1)).Nodup →
      ∀ {c : Cell} {v w : β}, (c, v) ∈ l → (c, w) ∈ l → v = w := by
  intro l
  induction l with
  | nil => intro _ c v w hv _; simp at hv
  | cons q qs ih =>
    intro hnd c v w hv hw
    rw [List.map_cons, List.nodup_cons] at hnd
    rcases List.mem_cons.mp hv with rfl | hv'
    · rcases List.mem_cons.mp hw with heq | hw'
      · simpa using heq.symm
      · exact absurd (List.mem_map.mpr ⟨(c, w), hw', rfl⟩) hnd.1
    · rcases List.mem_cons.mp hw with heq | hw'
      · subst heq
        exact absurd (List.mem_map.mpr ⟨(c, v), hv', rfl⟩) hnd.1
      · exact ih hnd.2 hv' hw'

theorem lookup_isSome_of_mem_fst {β : Type} :
    ∀ (l : List (Cell × β)) (c : Cell), c ∈ l.map (fun cv => cv.1) →
      (l.lookup c).isSome := by
  intro l
  induction l with
  | nil => intro c hc; simp at hc
  | cons q qs ih =>
    intro c hc
    obtain ⟨a, b⟩ := q
    rw [List.lookup_cons]
    cases hca : c == a with
    | true => simp
    | false =>
      apply ih
      rcases List.mem_cons.mp hc with heq | hmem
      · simp at heq
        subst heq
        simp at hca
      · exact hmem

theorem pushed_of_oversized {labeled : List (Cell × String)} {mps : Nat}
    {v : String} {g : List Cell} (hg : (v, g) ∈ groupsBy labeled)
    (hbig : mps < g.length) : (g, v) ∈ pushedOf labeled mps := by
  rw [pushedOf]
  apply List.mem_filterMap.mpr
  exact ⟨(v, g), hg, by rw [if_neg (by simp; omega)]⟩

/-- The work-loop invariant behind the size bound: worklist subsets are
duplicate-free subsets of the cells; worklist prefixes are pairwise
distinct and outside each other's partition subtrees; no assigned label
lies inside the subtree of a pending prefix; and every label group either
fits the bound already or lies wholly inside a single pending subset. -/
structure LoopInv (cells : List Cell) (mps : Nat)
    (wl : List (List Cell × String)) (f : Cell → Option String) : Prop where
  subNodup : ∀ e ∈ wl, e.1 ⊆ cells ∧ e.1.Nodup
  pfxFree : List.Pairwise (fun e e' : List Cell × String =>
    e.2 ≠ e'.2 ∧ ¬ barExt e.2.data e'.2.data ∧ ¬ barExt e'.2.data e.2.data) wl
  labelsFree : ∀ e ∈ wl, ∀ c v, f c = some v → ¬ barExt e.2.data v.data
  sizes : ∀ v : String, cells.countP (fun c => f c == some v) ≤ mps ∨
    ∃ e ∈ wl, ∀ c, f c = some v → c ∈ e.1

theorem pairwise_and_forall {α : Type} {R : α → α → Prop} {P : α → Prop} :
    ∀ {l : List α}, List.Pairwise R l → (∀ x ∈ l, P x) →
      List.Pairwise (fun a b => R a b ∧ P a ∧ P b) l := by
  intro l hR
  induction hR with
  | nil => intro _; exact List.Pairwise.nil
  | cons hr _ ih =>
    intro hP
    refine List.Pairwise.cons ?_ (ih (fun x hx => hP x (List.mem_cons_of_mem _ hx)))
    intro b hb
    exact ⟨hr b hb, hP _ (List.mem_cons_self _ _), hP b (List.mem_cons_of_mem _ hb)⟩

theorem loopInv_step (cells : List Cell) (mps : Nat) (S : List Cell)
    (pfx : String) (rest : List (List Cell × String))
    (f : Cell → Option String) (ts : List String)
    (hts : ∀ v ∈ ts, ∃ i : Nat, v = pfx ++ "|" ++ Nat.repr i)
    (hlen : S.length ≤ ts.length) (hnc : cells.Nodup)
    (inv : LoopInv cells mps ((S, pfx) :: rest) f) :
    LoopInv cells mps ((pushedOf (S.zip ts) mps).reverse ++ rest)
      (assignLabels f (S.zip ts)) := by
  have hS : S ⊆ cells := (inv.subNodup (S, pfx) (List.mem_cons_self _ _)).1
  have hSnd : S.Nodup := (inv.subNodup (S, pfx) (List.mem_cons_self _ _)).2
  have hfst : (S.zip ts).map (fun cv => cv.1) = S := List.map_fst_zip S ts hlen
  have hfstnd : ((S.zip ts).map (fun cv => cv.1)).Nodup := by rw [hfst]; exact hSnd
  have hshape : ∀ {c : Cell} {v : String}, (c, v) ∈ S.zip ts →
      ∃ i, v = pfx ++ "|" ++ Nat.repr i := by
    intro c v hcv
    exact hts v (zip_map_snd_subset S ts v (List.mem_map.mpr ⟨(c, v), hcv, rfl⟩))
  have hD : ∀ e' ∈ rest, pfx ≠ e'.2 ∧ ¬ barExt pfx.data e'.2.data ∧
      ¬ barExt e'.2.data pfx.data :=
    fun e' he' => List.rel_of_pairwise_cons inv.pfxFree he'
  have hLF : ∀ c v, f c = some v → ¬ barExt pfx.data v.data :=
    inv.labelsFree (S, pfx) (List.mem_cons_self _ _)
  have hbarpfx : ∀ i : Nat, barExt pfx.data (pfx ++ "|" ++ Nat.repr i).data := by
    intro i
    rw [label_data]
    exact bar_le_label pfx.data (Nat.repr i).data
  have hF3 : ∀ c v, assignLabels f (S.zip ts) c = some v →
      (c, v) ∈ S.zip ts ∨ (f c = some v ∧ c ∉ S) := by
    intro c v hv
    simp only [assignLabels] at hv
    cases hl : (S.zip ts).lookup c with
    | some w =>
      rw [hl] at hv
      simp only [Option.some.injEq] at hv
      subst hv
      exact Or.inl (lookup_mem _ hl)
    | none =>
      rw [hl] at hv
      refine Or.inr ⟨hv, ?_⟩
      intro hcS
      have := lookup_isSome_of_mem_fst (S.zip ts) c (by rw [hfst]; exact hcS)
      rw [hl] at this
      simp at this
  have hPsh : ∀ e' ∈ pushedOf (S.zip ts) mps,
      (∃ i, e'.2 = pfx ++ "|" ++ Nat.repr i) ∧ mps < e'.1.length ∧
      e'.1 = ((S.zip ts).filter (fun cv => cv.2 == e'.2)).map (fun cv => cv.1) := by
    intro e' he'
    obtain ⟨g', v'⟩ := e'
    have hm := mem_pushedOf he'
    have hgb := mem_groupsBy hm.1
    refine ⟨?_, hm.2, hgb.2⟩
    rcases List.mem_map.mp hgb.1 with ⟨cv, hcv, rfl⟩
    exact hshape (by exact hcv)
  have hpushSub : ∀ e' ∈ pushedOf (S.zip ts) mps, e'.1 ⊆ cells ∧ e'.1.Nodup := by
    intro e' he'
    rcases hPsh e' he' with ⟨_, _, hgeq⟩
    constructor
    · intro x hx
      rw [hgeq] at hx
      exact hS ((group_sublist _).subset hx)
    · rw [hgeq]
      exact (group_sublist _).nodup hSnd
  refine ⟨?_, ?_, ?_, ?_⟩
  · -- subsets and duplicate-freedom
    intro e' he'
    rcases List.mem_append.mp he' with hp | hr
    · exact hpushSub e' (List.mem_reverse.mp hp)
    · exact inv.subNodup e' (List.mem_cons_of_mem _ hr)
  · -- pairwise prefix freedom
    rw [List.pairwise_append]
    refine ⟨?_, inv.pfxFree.of_cons, ?_⟩
    · rw [List.pairwise_reverse]
      have hkeys : List.Pairwise
          (fun gv gv' : String × List Cell => gv.1 ≠ gv'.1)
          (groupsBy (S.zip ts)) := by
        rw [groupsBy, List.pairwise_map]
        exact List.nodup_dedup _
      have hkeyshape : ∀ gv ∈ groupsBy (S.zip ts),
          ∃ i, gv.1 = pfx ++ "|" ++ Nat.repr i := by
        intro gv hgv
        obtain ⟨v, g⟩ := gv
        rcases List.mem_map.mp (mem_groupsBy hgv).1 with ⟨cv, hcv, rfl⟩
        exact hshape (by exact hcv)
      have henr := pairwise_and_forall hkeys hkeyshape
      rw [pushedOf]
      refine List.Pairwise.filterMap _ ?_ henr
      intro a a' hR b hb b' hb'
      by_cases hle : a.2.length ≤ mps
      · rw [if_pos hle] at hb; simp at hb
      · by_cases hle' : a'.2.length ≤ mps
        · rw [if_pos hle'] at hb'; simp at hb'
        · rw [if_neg hle] at hb
          rw [if_neg hle'] at hb'
          rw [Option.mem_def] at hb hb'
          simp only [Option.some.injEq] at hb hb'
          subst hb
          subst hb'
          rcases hR.2.1 with ⟨i, hi⟩
          rcases hR.2.2 with ⟨j, hj⟩
          refine ⟨?_, ?_, ?_⟩
          · intro hcon
            exact hR.1 hcon.symm
          · rw [hi, hj, label_data, label_data]
            exact not_barExt_ext (bar_not_mem_repr i)
          · rw [hi, hj, label_data, label_data]
            exact not_barExt_ext (bar_not_mem_repr j)
    · intro a ha b hb
      have hain := hpushSub a (List.mem_reverse.mp ha)
      rcases hPsh a (List.mem_reverse.mp ha) with ⟨⟨i, hi⟩, _, _⟩
      rcases hD b hb with ⟨hDne, hDf, hDb⟩
      have hbe : barExt pfx.data a.2.data := by rw [hi]; exact hbarpfx i
      refine ⟨?_, ?_, ?_⟩
      · intro hcon
        exact hDf (hcon ▸ hbe)
      · intro hcon
        exact hDf (barExt_of_le hbe hcon)
      · rw [hi, label_data]
        apply not_barExt_shift
        · intro hcon
          exact hDne (String.ext hcon).symm
        · exact hDb
        · exact hDf
  · -- assigned labels avoid pending subtrees
    intro e' he' c v hv
    rcases hF3 c v hv with hcv | ⟨hfc, hcS⟩
    · rcases hshape hcv with ⟨j, rfl⟩
      rcases List.mem_append.mp he' with hp | hr
      · rcases hPsh e' (List.mem_reverse.mp hp) with ⟨⟨i, hi⟩, _, _⟩
        rw [hi, label_data, label_data]
        exact not_barExt_ext (bar_not_mem_repr j)
      · rcases hD e' hr with ⟨hDne, hDf, hDb⟩
        rw [label_data]
        apply not_barExt_shift
        · intro hcon
          exact hDne (String.ext hcon).symm
        · exact hDb
        · exact hDf
    · rcases List.mem_append.mp he' with hp | hr
      · rcases hPsh e' (List.mem_reverse.mp hp) with ⟨⟨i, hi⟩, _, _⟩
        intro hcon
        apply hLF c v hfc
        apply barExt_of_le ?_ hcon
        rw [hi]
        rw [label_data]
        exact bar_le_label pfx.data (Nat.repr i).data
      · exact inv.labelsFree e' (List.mem_cons_of_mem _ hr) c v hfc
  · -- group sizes
    intro v
    by_cases hvmem : v ∈ (S.zip ts).map (fun cv => cv.2)
    · rcases hts v (zip_map_snd_subset S ts v hvmem) with ⟨j, hvj⟩
      have hchar : ∀ c, assignLabels f (S.zip ts) c = some v ↔
          c ∈ ((S.zip ts).filter (fun cv => cv.2 == v)).map (fun cv => cv.1) := by
        intro c
        constructor
        · intro hv
          rcases hF3 c v hv with hcv | ⟨hfc, _⟩
          · exact List.mem_map.mpr ⟨(c, v),
              List.mem_filter.mpr ⟨hcv, by simp⟩, rfl⟩
          · exfalso
            apply hLF c v hfc
            rw [hvj]
            exact hbarpfx j
        · intro hc
          rcases List.mem_map.mp hc with ⟨cv, hcvf, rfl⟩
          rcases List.mem_filter.mp hcvf with ⟨hcvmem, hcveq⟩
          have hcv2 : cv.2 = v := by simpa using hcveq
          have hpair : (cv.1, v) ∈ S.zip ts := by
            obtain ⟨x, y⟩ := cv
            simp only at hcv2
            exact hcv2 ▸ hcvmem
          have hsome := lookup_isSome_of_mem_fst (S.zip ts) cv.1
            (List.mem_map.mpr ⟨(cv.1, v), hpair, rfl⟩)
          simp only [assignLabels]
          cases hl : (S.zip ts).lookup cv.1 with
          | none => rw [hl] at hsome; simp at hsome
          | some w =>
            have hw := lookup_mem _ hl
            rw [mem_fst_unique hfstnd hw hpair]
      have hGsub : ((S.zip ts).filter (fun cv => cv.2 == v)).map
          (fun cv => cv.1) ⊆ cells :=
        fun x hx => hS ((group_sublist _).subset hx)
      have hGnd : (((S.zip ts).filter (fun cv => cv.2 == v)).map
          (fun cv => cv.1)).Nodup := (group_sublist _).nodup hSnd
      have hcount : cells.countP (fun c => assignLabels f (S.zip ts) c == some v) =
          (((S.zip ts).filter (fun cv => cv.2 == v)).map (fun cv => cv.1)).length := by
        rw [List.countP_congr ?_, countP_mem_eq_length cells _ hnc hGnd hGsub]
        intro c _
        constructor
        · intro hb
          apply decide_eq_true
          exact (hchar c).mp (by simpa using hb)
        · intro hb
          have := (hchar c).mpr (of_decide_eq_true hb)
          simp [this]
      by_cases hsize : (((S.zip ts).filter (fun cv => cv.2 == v)).map
          (fun cv => cv.1)).length ≤ mps
      · left
        rw [hcount]
        exact hsize
      · right
        refine ⟨(((S.zip ts).filter (fun cv => cv.2 == v)).map (fun cv => cv.1), v),
          ?_, ?_⟩
        · apply List.mem_append_left
          apply List.mem_reverse.mpr
          apply pushed_of_oversized ?_ (by omega)
          rw [groupsBy]
          exact List.mem_map.mpr ⟨v, List.mem_dedup.mpr hvmem, rfl⟩
        · intro c hc
          exact (hchar c).mp hc
    · have hBi : ∀ c, assignLabels f (S.zip ts) c = some v →
          f c = some v ∧ c ∉ S := by
        intro c hv
        rcases hF3 c v hv with hcv | hold
        · exact absurd (List.mem_map.mpr ⟨(c, v), hcv, rfl⟩) hvmem
        · exact hold
      rcases inv.sizes v with hle | ⟨e, he, hcov⟩
      · left
        refine le_trans (List.countP_mono_left ?_) hle
        intro c _ hb
        have := (hBi c (by simpa using hb)).1
        simp [this]
      · rcases List.mem_cons.mp he with rfl | hr
        · left
          have hzero : cells.countP
              (fun c => assignLabels f (S.zip ts) c == some v) = 0 := by
            rw [List.countP_eq_zero]
            intro c _ hb
            have hB := hBi c (by simpa using hb)
            exact hB.2 (hcov c hB.1)
          rw [hzero]
          exact Nat.zero_le mps
        · right
          exact ⟨e, List.mem_append_right _ hr,
            fun c hc => hcov c (hBi c hc).1⟩

theorem kmeansLoop_sizes (oracle : Oracle) (matrix : Mat) (cells : List Cell)
    (mps maxK : Nat) (hol : OracleLen oracle) (hnc : cells.Nodup)
    (hml : matrix.length = cells.length) :
    ∀ (fuel : Nat) (wl : List (List Cell × String)) (f g : Cell → Option String),
      LoopInv cells mps wl f →
      kmeansLoop oracle matrix cells mps maxK fuel wl f = some g →
      ∀ v : String, cells.countP (fun c => g c == some v) ≤ mps := by
  intro fuel
  induction fuel with
  | zero =>
    intro wl f g inv hres v
    cases wl with
    | nil =>
      have hfg : f = g := by
        have : some f = some g := hres
        simpa using this
      subst hfg
      rcases inv.sizes v with hle | ⟨e, he, _⟩
      · exact hle
      · simp at he
    | cons e rest => simp [kmeansLoop] at hres
  | succ fuel ih =>
    intro wl f g inv hres v
    cases wl with
    | nil =>
      have hfg : f = g := by
        have : some f = some g := hres
        simpa using this
      subst hfg
      rcases inv.sizes v with hle | ⟨e, he, _⟩
      · exact hle
      · simp at he
    | cons e rest =>
      obtain ⟨S, pfx⟩ := e
      rw [kmeansLoop] at hres
      have hSn := inv.subNodup (S, pfx) (List.mem_cons_self _ _)
      have hts : ∀ v' ∈ (oracle (mkMBK (min (S.length / mps + 1) maxK))
          (subMatrix matrix cells S)).map (fun i => pfx ++ "|" ++ Nat.repr i),
          ∃ i : Nat, v' = pfx ++ "|" ++ Nat.repr i := by
        intro v' hv'
        rcases List.mem_map.mp hv' with ⟨i, _, rfl⟩
        exact ⟨i, rfl⟩
      have hlen : S.length ≤ ((oracle (mkMBK (min (S.length / mps + 1) maxK))
          (subMatrix matrix cells S)).map
            (fun i => pfx ++ "|" ++ Nat.repr i)).length := by
        rw [List.length_map, hol, subMatrix_length matrix cells S hml hnc hSn.2 hSn.1]
      have hstep := loopInv_step cells mps S pfx rest f _ hts hlen hnc inv
      rw [labeledOf_zip] at hres
      exact ih _ _ g hstep hres v

/-- C1: whenever the partition loop of _kmeans_division terminates with
max_pseudo_size above 1, every final pseudo-cell group (the rows of the
returned Series sharing one label) has at most max_pseudo_size cells;
moreover any group whose size exceeds the bound is pushed back onto the
to_process stack for further splitting, never recorded as final. -/
theorem division_size_bound (oracle : Oracle) (matrix : Mat)
    (cells : List Cell) (mps maxK fuel : Nat)
    (res : List (Cell × Option String)) (hol : OracleLen oracle)
    (hnc : cells.Nodup) (hml : matrix.length = cells.length) (hmps : 1 < mps)
    (hres : kmeansDivision oracle matrix cells mps maxK fuel = some res) :
    (∀ v : String, res.countP (fun e => e.2 == some v) ≤ mps) ∧
    ∀ (labeled : List (Cell × String)) (v : String) (g : List Cell),
      (v, g) ∈ groupsBy labeled → mps < g.length →
      (g, v) ∈ pushedOf labeled mps := by
  constructor
  · intro v
    rw [kmeansDivision, if_neg (by omega)] at hres
    cases hk : kmeansLoop oracle matrix cells mps maxK fuel [(cells, "")]
        (fun _ => none) with
    | none => rw [hk] at hres; simp at hres
    | some gfun =>
      rw [hk] at hres
      simp only [Option.map_some', Option.some.injEq] at hres
      subst hres
      have hinv : LoopInv cells mps [(cells, "")] (fun _ => none) := by
        refine ⟨?_, ?_, ?_, ?_⟩
        · intro e he
          rcases List.mem_cons.mp he with rfl | h
          · exact ⟨fun x hx => hx, hnc⟩
          · simp at h
        · exact List.pairwise_singleton _ _
        · intro e _ c v' hv'
          simp at hv'
        · intro v'
          left
          have hz : cells.countP
              (fun c => (fun _ : Cell => (none : Option String)) c == some v') = 0 := by
            rw [List.countP_eq_zero]
            intro c _ hb
            simp at hb
          rw [hz]
          exact Nat.zero_le mps
      have hsizes := kmeansLoop_sizes oracle matrix cells mps maxK hol hnc hml
        fuel [(cells, "")] _ gfun hinv hk v
      have hcp : (cells.map (fun c => (c, gfun c))).countP
          (fun e => e.2 == some v) = cells.countP (fun c => gfun c == some v) := by
        rw [List.countP_map]
        rfl
      rw [hcp]
      exact hsizes
  · intro labeled v g hg hbig
    exact pushed_of_oversized hg hbig

theorem division_size_bound_witness :
    ([((0 : Cell), some "|0"), (1, some "|1"), (2, some "|2"),
      (3, some "|0"), (4, some "|1")].countP
        (fun e => e.2 == some "|0")) ≤ 2 :=
  (division_size_bound roundOracle [[0], [0], [0], [0], [0]] [0, 1, 2, 3, 4]
    2 50 5
    [(0, some "|0"), (1, some "|1"), (2, some "|2"), (3, some "|0"),
      (4, some "|1")]
    roundOracle_len (by decide) (by rfl) (by decide) (by rfl)).1 "|0"

/-! Aggregation row counts: one output row per distinct label, n_cells is
the group size, and per cluster the n_cells add up to the cluster size. -/

theorem except_mapM_ok {α β : Type} (g : α → Except String β) :
    ∀ (l : List α) (rs : List β), l.mapM g = Except.ok rs →
      List.Forall₂ (fun x r => g x = Except.ok r) l rs := by
  intro l
  induction l with
  | nil =>
    intro rs h
    rw [List.mapM_nil] at h
    simp only [pure, Except.pure, Except.ok.injEq] at h
    subst h
    exact List.Forall₂.nil
  | cons a as ih =>
    intro rs h
    rw [List.mapM_cons] at h
    cases hga : g a with
    | error e => rw [hga] at h; simp [Bind.bind, Except.bind] at h
    | ok b =>
      rw [hga] at h
      cases hmas : as.mapM g with
      | error e =>
        rw [hmas] at h
        simp [Bind.bind, Except.bind, pure, Except.pure] at h
      | ok bs =>
        rw [hmas] at h
        simp only [Bind.bind, Except.bind, pure, Except.pure,
          Except.ok.injEq] at h
        subst h
        exact List.Forall₂.cons hga (ih bs hmas)

theorem mergeOne_ok {X : Mat} {obsNames : List Cell} {af : String}
    {pick : List Cell → Cell} {gv : String × List Cell} {r : PseudoRow}
    (h : mergeOne X obsNames af pick gv = Except.ok r) :
    r.label = gv.1 ∧ r.nCells = gv.2.length := by
  rw [mergeOne] at h
  split_ifs at h <;> (simp only [Except.ok.injEq] at h; subst h; exact ⟨rfl, rfl⟩)

theorem forall₂_countP_eq {α β : Type} {R : α → β → Prop} (p : β → Bool)
    (q : α → Bool) :
    ∀ {l : List α} {m : List β}, List.Forall₂ R l m →
      (∀ x ∈ l, ∀ v, R x v → p v = q x) → m.countP p = l.countP q := by
  intro l m h
  induction h with
  | nil => intro _; rfl
  | cons hR htail ih =>
    intro hall
    rw [List.countP_cons, List.countP_cons,
      hall _ (List.mem_cons_self _ _) _ hR,
      ih (fun x hx v hv => hall x (List.mem_cons_of_mem _ hx) v hv)]

/-- C9: with the group column holding the planner's per-cell labels, a
successful aggregation has exactly one row per distinct label (the row
labels are the distinct column values), each row's n_cells equals the
number of cells carrying that label, and per cluster the n_cells of the
cluster's rows add up to the cluster's cell count. -/
theorem merge_row_counts (oracle : Oracle) (clusters : List (Cell × String))
    (totalMatrix X : Mat) (pcs mps fuel : Nat)
    (recs : List (Cell × Option String)) (groupCol : List String)
    (af : String) (pick : List Cell → Cell) (rows : List PseudoRow)
    (hol : OracleLen oracle)
    (hnd : (clusters.map (fun cc => cc.1)).Nodup)
    (hml : totalMatrix.length = clusters.length)
    (hres : calculatePseudoGroup oracle clusters totalMatrix pcs mps fuel =
      some recs)
    (hcol : List.Forall₂ (fun (cc : Cell × String) (v : String) =>
      (cc.1, some v) ∈ recs) clusters groupCol)
    (hm : mergePseudoCell X (clusters.map (fun cc => cc.1)) groupCol af pick =
      Except.ok rows) :
    rows.map (fun r => r.label) = groupCol.dedup ∧
    (∀ r ∈ rows, r.nCells = groupCol.count r.label) ∧
    ∀ name ∈ clusters.map (fun cc => cc.2),
      ((rows.filter (fun r => decide (∃ cc ∈ clusters, cc.2 = name ∧
        (cc.1, some r.label) ∈ recs))).map (fun r => r.nCells)).sum =
      clusters.countP (fun cc => cc.2 == name) := by
  have hlen : (clusters.map (fun cc => cc.1)).length = groupCol.length := by
    rw [List.length_map]
    exact hcol.length_eq
  rw [mergePseudoCell] at hm
  have hfa := except_mapM_ok _ _ _ hm
  have hlabels : rows.map (fun r => r.label) = groupCol.dedup := by
    have h1 : rows.map (fun r => r.label) =
        (mergeGroups (clusters.map (fun cc => cc.1)) groupCol).map
          (fun gv => gv.1) :=
      forall₂_map_eq _ _ hfa (fun gv r hr => (mergeOne_ok hr).1)
    rw [h1, mergeGroups, List.map_map]
    have hcomp : ((fun gv : String × List Cell => gv.1) ∘
        (fun v => (v, ((( clusters.map (fun cc => cc.1)).zip groupCol).filter
          (fun p => p.2 == v)).map (fun p => p.1)))) = id := rfl
    rw [hcomp, List.map_id]
  have hcounts : ∀ r ∈ rows, r.nCells = groupCol.count r.label := by
    intro r hr
    rcases forall₂_mem_right hfa r hr with ⟨gv, hgv, hok⟩
    have hsz := mergeGroups_sizes (clusters.map (fun cc => cc.1)) groupCol
      hlen gv hgv
    have hmk := mergeOne_ok hok
    rw [hmk.2, hsz, hmk.1]
  refine ⟨hlabels, hcounts, ?_⟩
  intro name _
  have hsum1 : ((rows.filter (fun r => decide (∃ cc ∈ clusters, cc.2 = name ∧
      (cc.1, some r.label) ∈ recs))).map (fun r => r.nCells)).sum =
      ((rows.filter (fun r => decide (∃ cc ∈ clusters, cc.2 = name ∧
        (cc.1, some r.label) ∈ recs))).map
          (fun r => groupCol.count r.label)).sum := by
    apply congrArg
    apply List.map_congr_left
    intro r hr
    exact hcounts r (List.mem_filter.mp hr).1
  have hsum2 : ((rows.filter (fun r => decide (∃ cc ∈ clusters, cc.2 = name ∧
      (cc.1, some r.label) ∈ recs))).map
        (fun r => groupCol.count r.label)).sum =
      (((rows.map (fun r => r.label)).filter (fun v => decide
        (∃ cc ∈ clusters, cc.2 = name ∧ (cc.1, some v) ∈ recs))).map
          (fun v => groupCol.count v)).sum := by
    have hmf := List.filter_map (fun r : PseudoRow => r.label) rows
      (p := fun v => decide (∃ cc ∈ clusters, cc.2 = name ∧ (cc.1, some v) ∈ recs))
    rw [hmf, List.map_map]
    rfl
  have hsum3 : (((rows.map (fun r => r.label)).filter (fun v => decide
      (∃ cc ∈ clusters, cc.2 = name ∧ (cc.1, some v) ∈ recs))).map
        (fun v => groupCol.count v)).sum =
      groupCol.countP (fun v => decide
        (∃ cc ∈ clusters, cc.2 = name ∧ (cc.1, some v) ∈ recs)) := by
    rw [hlabels]
    exact List.sum_map_count_dedup_filter_eq_countP _ groupCol
  have hsum4 : groupCol.countP (fun v => decide
      (∃ cc ∈ clusters, cc.2 = name ∧ (cc.1, some v) ∈ recs)) =
      clusters.countP (fun cc => cc.2 == name) := by
    apply forall₂_countP_eq _ _ hcol
    intro cc hcc v hrv
    rw [Bool.eq_iff_iff]
    simp only [decide_eq_true_eq, beq_iff_eq]
    constructor
    · rintro ⟨cc', hcc', hname', hrec'⟩
      have hsame := (recs_label_cluster oracle clusters totalMatrix pcs mps
        fuel recs hol hnd hml hres (cc'.1, some v) hrec' (cc.1, some v) hrv
        v rfl rfl).1
      have hl1 : clusters.lookup cc'.1 = some cc'.2 :=
        lookup_eq_of_mem_of_nodup clusters cc'.1 cc'.2 hnd
          (by rw [Prod.mk.eta]; exact hcc')
      have hl2 : clusters.lookup cc.1 = some cc.2 :=
        lookup_eq_of_mem_of_nodup clusters cc.1 cc.2 hnd
          (by rw [Prod.mk.eta]; exact hcc)
      rw [hl1, hl2] at hsame
      simp only [Option.some.injEq] at hsame
      rw [← hsame, hname']
    · intro hccname
      exact ⟨cc, hcc, hccname, hrv⟩
  rw [hsum1, hsum2, hsum3, hsum4]

theorem merge_row_counts_witness :
    ([⟨"a::|1", 1, [3, 4]⟩, ⟨"b::|0", 1, [5, 6]⟩,
      (⟨"a::|0", 2, [1, 2]⟩ : PseudoRow)].map (fun r => r.label)) =
        (["a::|0", "a::|1", "b::|0", "a::|0"].dedup) ∧
    (∀ r ∈ [⟨"a::|1", 1, [3, 4]⟩, ⟨"b::|0", 1, [5, 6]⟩,
      (⟨"a::|0", 2, [1, 2]⟩ : PseudoRow)],
      r.nCells = ["a::|0", "a::|1", "b::|0", "a::|0"].count r.label) ∧
    ∀ name ∈ ([((0 : Cell), "a"), (1, "a"), (2, "b"), (3, "a")].map
      (fun cc => cc.2)),
      (([⟨"a::|1", 1, [3, 4]⟩, ⟨"b::|0", 1, [5, 6]⟩,
        (⟨"a::|0", 2, [1, 2]⟩ : PseudoRow)].filter
          (fun r => decide (∃ cc ∈ [((0 : Cell), "a"), (1, "a"), (2, "b"),
            (3, "a")], cc.2 = name ∧ (cc.1, some r.label) ∈
              [((2 : Cell), some "b::|0"), (0, some "a::|0"),
                (1, some "a::|1"), (3, some "a::|0")]))).map
            (fun r => r.nCells)).sum =
      ([((0 : Cell), "a"), (1, "a"), (2, "b"), (3, "a")].countP
        (fun cc => cc.2 == name)) :=
  merge_row_counts roundOracle [(0, "a"), (1, "a"), (2, "b"), (3, "a")]
    [[1], [2], [3], [4]] [[1, 2], [3, 4], [5, 6], [7, 8]] 2 3 9
    [(2, some "b::|0"), (0, some "a::|0"), (1, some "a::|1"),
      (3, some "a::|0")]
    ["a::|0", "a::|1", "b::|0", "a::|0"] "downsample" (fun l => l.headD 0)
    [⟨"a::|1", 1, [3, 4]⟩, ⟨"b::|0", 1, [5, 6]⟩, ⟨"a::|0", 2, [1, 2]⟩]
    roundOracle_len (by decide) (by rfl) (by rfl)
    (List.Forall₂.cons (by decide) (List.Forall₂.cons (by decide)
      (List.Forall₂.cons (by decide) (List.Forall₂.cons (by decide)
        List.Forall₂.nil))))
    (by rfl)

end PseudoCell
